import Mathlib

/-!
Verification development for the CleanNames rename-plan engine
(`src/main.py`).  The core of the program — name sanitisation, unique
target allocation, the four plan generators, the two-phase executor,
undo replay and undo persistence — is shallowly embedded below.  File
names are modelled as explicit character lists; directories are opaque
identifiers; the filesystem is an association list from paths to entry
identities.  External effects (the `re` engine, EXIF reading, OS-level
move failures) enter as explicit function parameters.
-/

set_option maxHeartbeats 1000000

/-- A filesystem path as used by the renamer: every operation is a
same-directory rename, so a path is its parent directory (an abstract
identifier) plus its final name (`pathlib.Path.name`). -/
structure FsPath where
  dir : Nat
  name : List Char
deriving DecidableEq, Repr

/-- `Path.with_name`: replace the final component, keep the parent. -/
def withName (p : FsPath) (n : List Char) : FsPath :=
  ⟨p.dir, n⟩

/-- The hidden staging name used by `RenameWorker.run`:
`op.src.with_name(f".{op.src.name}.swap_tmp")`, i.e. a dot, then the
original name, then `.swap_tmp`, in the same directory. -/
def swapChars : List Char :=
  ['.', 's', 'w', 'a', 'p', '_', 't', 'm', 'p']

def tmpPath (p : FsPath) : FsPath :=
  withName p ('.' :: (p.name ++ swapChars))

/-- ASCII lowering, modelling `str.lower` on the characters relevant to
the reserved-device-name comparison. -/
def lowerCh (c : Char) : Char :=
  if 'A' ≤ c ∧ c ≤ 'Z' then Char.ofNat (c.toNat + 32) else c

/-- Python `str.strip()` whitespace (ASCII fragment). -/
def pyWs (c : Char) : Bool :=
  c = ' ' ∨ c = '\t' ∨ c = '\n' ∨ c = '\r' ∨ c = '\x0b' ∨ c = '\x0c'

/-- Horizontal whitespace, the class `[ \t]` of the first `re.sub` in
`sanitise`. -/
def spTab (c : Char) : Bool :=
  c = ' ' ∨ c = '\t'

def undCh (c : Char) : Bool :=
  c = '_'

/-- `str.strip()`: drop leading and trailing whitespace. -/
def pyStrip (l : List Char) : List Char :=
  (((l.dropWhile pyWs).reverse.dropWhile pyWs)).reverse

/-- `re.sub(p+, r, ·)` for a character class `p`: every maximal run of
`p`-characters is replaced by the single character `r`. -/
def subRuns (p : Char → Bool) (r : Char) : List Char → List Char
  | [] => []
  | [c] => if p c then [r] else [c]
  | c :: d :: cs =>
    if p c then
      (if p d then subRuns p r (d :: cs) else r :: subRuns p r (d :: cs))
    else c :: subRuns p r (d :: cs)

/-- The Windows reserved device names guarded by `_windows_fix`. -/
def WIN_RESERVED : List (List Char) :=
  [ ['c','o','n'], ['p','r','n'], ['a','u','x'], ['n','u','l'],
    ['c','o','m','1'], ['c','o','m','2'], ['c','o','m','3'],
    ['c','o','m','4'], ['c','o','m','5'], ['c','o','m','6'],
    ['c','o','m','7'], ['c','o','m','8'], ['c','o','m','9'],
    ['l','p','t','1'], ['l','p','t','2'], ['l','p','t','3'],
    ['l','p','t','4'], ['l','p','t','5'], ['l','p','t','6'],
    ['l','p','t','7'], ['l','p','t','8'], ['l','p','t','9'] ]

/-- `name.split('.')` destructured as `base, *ext`: the part before the
first dot, and — when a dot occurs — everything after it (rejoining
`ext` with dots reproduces that remainder verbatim). -/
def splitFirstDot : List Char → List Char × Option (List Char)
  | [] => ([], none)
  | c :: cs =>
    if c = '.' then ([], some cs)
    else
      let r := splitFirstDot cs
      (c :: r.1, r.2)

/-- `base.rstrip(' .')`. -/
def rstripSpaceDot (l : List Char) : List Char :=
  (l.reverse.dropWhile (fun c => c = ' ' ∨ c = '.')).reverse

/-- `_windows_fix` from the source: append `_` to a reserved stem,
strip trailing spaces and dots from the stem, reattach the extension
part unchanged. -/
def windowsFix (name : List Char) : List Char :=
  let s := splitFirstDot name
  let base := if s.1.map lowerCh ∈ WIN_RESERVED then s.1 ++ ['_'] else s.1
  let base := rstripSpaceDot base
  match s.2 with
  | none => base
  | some r => base ++ '.' :: r

/-- The first line of `sanitise`: replace every bad character by `repl`
when `repl` is truthy (a non-empty string), otherwise delete bad
characters.  `none` models Python `None`. -/
def replPhase (bad : List Char) (repl : Option (List Char)) (name : List Char) : List Char :=
  match repl with
  | some r =>
    if r = [] then name.filter (fun c => c ∉ bad)
    else name.flatMap (fun c => if c ∈ bad then r else [c])
  | none => name.filter (fun c => c ∉ bad)

/-- Lines two to four of `sanitise`: strip, collapse horizontal
whitespace runs to `_`, collapse `_` runs, apply the Windows fix, and
fall back to `"_"` when the result is empty. -/
def sanitisePost (t0 : List Char) : List Char :=
  if windowsFix (subRuns undCh '_' (subRuns spTab '_' (pyStrip t0))) = [] then ['_']
  else windowsFix (subRuns undCh '_' (subRuns spTab '_' (pyStrip t0)))

/-- `sanitise` from the source: replace/delete bad characters, then
the normalisation pipeline. -/
def sanitise (name bad : List Char) (repl : Option (List Char)) : List Char :=
  sanitisePost (replPhase bad repl name)

/-- `pathlib.PurePath.stem`: the final name without its last suffix.
The suffix is non-empty only when the last dot is neither the first nor
the last character of the name. -/
def rsplitDot : List Char → Option (List Char × List Char)
  | [] => none
  | c :: cs =>
    if c = '.' then some ([], cs)
    else (rsplitDot cs).map (fun pr => (c :: pr.1, pr.2))

def pyStem (name : List Char) : List Char :=
  match rsplitDot name.reverse with
  | some (a, b) => if a = [] ∨ b = [] then name else b.reverse
  | none => name

/-- `pathlib.PurePath.suffix`. -/
def pySuffix (name : List Char) : List Char :=
  match rsplitDot name.reverse with
  | some (a, b) => if a = [] ∨ b = [] then [] else '.' :: a.reverse
  | none => []

/-- Decimal rendering of the counter, as in `f"{stem}_{i}{suf}"`. -/
def natChars (i : Nat) : List Char :=
  (Nat.repr i).data

/-- The `i`-th collision candidate `tgt.with_name(f"{stem}_{i}{suf}")`. -/
def candName (tgt : FsPath) (i : Nat) : FsPath :=
  withName tgt (pyStem tgt.name ++ '_' :: natChars i ++ pySuffix tgt.name)

/-- A path is available when it is neither in the claimed set nor on
the filesystem snapshot `ex`. -/
def freeP (ex : FsPath → Bool) (taken : List FsPath) (p : FsPath) : Prop :=
  p ∉ taken ∧ ex p = false

instance (ex : FsPath → Bool) (taken : List FsPath) (p : FsPath) :
    Decidable (freeP ex taken p) := by
  unfold freeP; infer_instance

/-- The `while i < 10000` search of `_unique`: try `ok i`, `ok (i+1)`,
… for `fuel` steps. -/
def uniqueScan (ok : Nat → Bool) : Nat → Nat → Option Nat
  | _, 0 => none
  | i, fuel + 1 => if ok i then some i else uniqueScan ok (i + 1) fuel

/-- `_unique` from the source.  Returns the allocated path together
with the updated claimed set, or `none` for the `RuntimeError` raised
after the attempt limit. -/
def uniqueAlloc (ex : FsPath → Bool) (tgt : FsPath) (taken : List FsPath) :
    Option (FsPath × List FsPath) :=
  if freeP ex taken tgt then some (tgt, tgt :: taken)
  else
    match uniqueScan (fun i => decide (freeP ex taken (candName tgt i))) 1 9999 with
    | some i => some (candName tgt i, candName tgt i :: taken)
    | none => none

/-- A candidate filesystem entry as enumerated by `_targets` (a path
snapshot plus its `is_file`/`is_dir` flags). -/
structure Entry where
  path : FsPath
  isFile : Bool
  isDir : Bool
deriving DecidableEq, Repr

/-- `RenameOp` from the source: a source path and a target path. -/
structure RenameOp where
  src : FsPath
  tgt : FsPath
deriving DecidableEq, Repr

/-- The shared extension filter
`if src.is_file() and exts and src.suffix.lower() not in exts`. -/
def extReject (exts : Option (List (List Char))) (e : Entry) : Bool :=
  e.isFile &&
    (match exts with
     | none => false
     | some l => !l.isEmpty && !(l.contains ((pySuffix e.path.name).map lowerCh)))

/-- Loop body of `generate_standard`, folding the claimed set through
the entry list (the Walker's deepest-first enumeration is the input
list; this generator performs no filesystem mutation).  The
case-insensitive extra skip applies only when `os.name == "nt"`; the
POSIX branch is modelled. -/
def genStdGo (ex : FsPath → Bool) (bad : List Char) (repl : Option (List Char))
    (exts : Option (List (List Char))) :
    List Entry → List FsPath → Option (List RenameOp)
  | [], _ => some []
  | e :: rest, taken =>
    if extReject exts e then genStdGo ex bad repl exts rest taken
    else
      if sanitise e.path.name bad repl = e.path.name then genStdGo ex bad repl exts rest taken
      else
        match uniqueAlloc ex (withName e.path (sanitise e.path.name bad repl)) taken with
        | none => none
        | some pr =>
          match genStdGo ex bad repl exts rest pr.2 with
          | none => none
          | some ops => some (⟨e.path, pr.1⟩ :: ops)

def generate_standard (ex : FsPath → Bool) (entries : List Entry) (bad : List Char)
    (repl : Option (List Char)) (exts : Option (List (List Char))) :
    Option (List RenameOp) :=
  genStdGo ex bad repl exts entries []

/-- Loop body of `generate_sequential`: the input list is the sorted
Walker output; each non-skipped entry gets `f"{pre}{n}{suf}"` and the
counter advances only on appended entries. -/
def genSeqGo (ex : FsPath → Bool) (pre : List Char) (exts : Option (List (List Char))) :
    List Entry → Nat → List FsPath → Option (List RenameOp)
  | [], _, _ => some []
  | e :: rest, n, taken =>
    if extReject exts e then genSeqGo ex pre exts rest n taken
    else
      match uniqueAlloc ex
          (withName e.path
            (pre ++ natChars n ++ (if e.isFile then pySuffix e.path.name else []))) taken with
      | none => none
      | some pr =>
        match genSeqGo ex pre exts rest (n + 1) pr.2 with
        | none => none
        | some ops => some (⟨e.path, pr.1⟩ :: ops)

def generate_sequential (ex : FsPath → Bool) (entries : List Entry) (pre : List Char)
    (start : Nat) (exts : Option (List (List Char))) : Option (List RenameOp) :=
  genSeqGo ex pre exts entries start []

/-- Loop body of `generate_regex`; `sub` is the compiled pattern's
substitution `rx.sub(repl, ·)`, supplied as an abstract function since
the `re` engine is an external collaborator. -/
def genRexGo (ex : FsPath → Bool) (sub : List Char → List Char)
    (exts : Option (List (List Char))) :
    List Entry → List FsPath → Option (List RenameOp)
  | [], _ => some []
  | e :: rest, taken =>
    if extReject exts e then genRexGo ex sub exts rest taken
    else
      if sub e.path.name = e.path.name then genRexGo ex sub exts rest taken
      else
        match uniqueAlloc ex (withName e.path (sub e.path.name)) taken with
        | none => none
        | some pr =>
          match genRexGo ex sub exts rest pr.2 with
          | none => none
          | some ops => some (⟨e.path, pr.1⟩ :: ops)

def generate_regex (ex : FsPath → Bool) (entries : List Entry)
    (sub : List Char → List Char) (exts : Option (List (List Char))) :
    Option (List RenameOp) :=
  genRexGo ex sub exts entries []

def PHOTO_EXTS : List (List Char) :=
  [ ['.','j','p','g'], ['.','j','p','e','g'], ['.','t','i','f'],
    ['.','t','i','f','f'], ['.','p','n','g'] ]

/-- Loop body of `generate_metadata`; `photoTs` is `_photo_dt`
composed with `strftime`, supplied abstractly (EXIF and mtime are
external).  Note the generator ignores the extension allow-list. -/
def genMetaGo (ex : FsPath → Bool) (photoTs : FsPath → Option (List Char))
    (pref : List Char) :
    List Entry → List FsPath → Option (List RenameOp)
  | [], _ => some []
  | e :: rest, taken =>
    if e.isDir || !(PHOTO_EXTS.contains ((pySuffix e.path.name).map lowerCh)) then
      genMetaGo ex photoTs pref rest taken
    else
      match photoTs e.path with
      | none => genMetaGo ex photoTs pref rest taken
      | some ts =>
        match uniqueAlloc ex
            (withName e.path (pref ++ ts ++ (pySuffix e.path.name).map lowerCh)) taken with
        | none => none
        | some pr =>
          match genMetaGo ex photoTs pref rest pr.2 with
          | none => none
          | some ops => some (⟨e.path, pr.1⟩ :: ops)

/-- `generate_metadata`; `pillow` models the availability of the
optional Pillow dependency (`Image is None` raises at plan start).
The `exts` parameter is accepted, and unused, exactly as in the
source. -/
def generate_metadata (ex : FsPath → Bool) (pillow : Bool)
    (photoTs : FsPath → Option (List Char)) (entries : List Entry)
    (pref : List Char) (_exts : Option (List (List Char))) : Option (List RenameOp) :=
  if pillow then genMetaGo ex photoTs pref entries [] else none

/-- The filesystem during execution: an association list from paths to
entry identities (the newest binding for a path wins). -/
def Fs : Type := List (FsPath × Nat)

instance : DecidableEq Fs := by
  unfold Fs; infer_instance

/-- Look up the entry currently at a path. -/
def fsFind (fs : Fs) (p : FsPath) : Option Nat :=
  match fs with
  | [] => none
  | kv :: rest => if kv.1 = p then some kv.2 else fsFind rest p

/-- Remove every binding for a path. -/
def eraseKey (p : FsPath) (fs : Fs) : Fs :=
  fs.filter (fun kv => kv.1 ≠ p)

/-- An OS move: fails when nothing is at `src`, otherwise rebinds the
entry to `dst` (the `rename`/`shutil.move` fallback pair of
`_safe_move` is a single primitive here). -/
def fsMove (fs : Fs) (src dst : FsPath) : Option Fs :=
  match fsFind fs src with
  | none => none
  | some v => some ((dst, v) :: eraseKey src fs)

/-- `_safe_move` with an external-failure oracle `bad`: `bad src dst =
true` models an OSError outside the model (permissions, device gone,
…); a missing source always fails. -/
def moveO (bad : FsPath → FsPath → Bool) (fs : Fs) (src dst : FsPath) : Option Fs :=
  if bad src dst then none else fsMove fs src dst

/-- `RenameWorker.run`: each operation is staged to its hidden
temporary name and then committed to the final target; the first
failing move aborts the remainder.  Returns the final filesystem, the
number of fully completed operations (the last progress value
emitted), and the success flag of the `finished` signal. -/
def execAux (bad : FsPath → FsPath → Bool) : List RenameOp → Fs → Fs × Nat × Bool
  | [], fs => (fs, 0, true)
  | op :: rest, fs =>
    match moveO bad fs op.src (tmpPath op.src) with
    | none => (fs, 0, false)
    | some fs1 =>
      match moveO bad fs1 (tmpPath op.src) op.tgt with
      | none => (fs1, 0, false)
      | some fs2 =>
        ((execAux bad rest fs2).1, (execAux bad rest fs2).2.1 + 1,
          (execAux bad rest fs2).2.2)

/-- The oracle under which no external failure occurs. -/
def noFail : FsPath → FsPath → Bool := fun _ _ => false

/-- The replay loop of `_undo_last` applied to an already-reversed
record: move each operation's target back onto its source, collecting
the operations whose move raised. -/
def undoGo (bad : FsPath → FsPath → Bool) : List RenameOp → Fs → Fs × List RenameOp
  | [], fs => (fs, [])
  | op :: rest, fs =>
    match moveO bad fs op.tgt op.src with
    | none => ((undoGo bad rest fs).1, op :: (undoGo bad rest fs).2)
    | some fs' => undoGo bad rest fs'

/-- `_log_undo_batch` serialisation: the JSON file holds the
`[str(op.src), str(op.tgt)]` pairs in plan order (the textual encoding
`Path(str(p)) == p` is modelled as the identity on paths). -/
def serializeOps (ops : List RenameOp) : List (FsPath × FsPath) :=
  ops.map (fun op => (op.src, op.tgt))

/-- The record reconstruction of `_load_persisted_undo`:
`RenameOp(Path(tgt), Path(src)) for src, tgt in data`. -/
def deserializeOps (data : List (FsPath × FsPath)) : List RenameOp :=
  data.map (fun pr => ⟨pr.2, pr.1⟩)

/-- The undo-relevant state of `MainWindow`: the filesystem, the
in-memory record `self.undo`, and the persisted `last_batch.json`
contents (`none` when the file is absent). -/
structure AppState where
  fs : Fs
  undo : List RenameOp
  persisted : Option (List (FsPath × FsPath))
deriving DecidableEq

/-- `_log_undo_batch`: write (overwrite) the persisted batch file. -/
def logUndoBatch (st : AppState) (ops : List RenameOp) : AppState :=
  { st with persisted := some (serializeOps ops) }

/-- `_rename_finished`: on success record the executed plan as the
in-memory undo record and persist it; on failure change nothing
(no undo record is written for a partially executed plan). -/
def renameFinished (st : AppState) (ok : Bool) (ops : List RenameOp) : AppState :=
  if ok then { logUndoBatch st ops with undo := ops }
  else st

/-- `_load_persisted_undo`: when the batch file exists, rebuild
`self.undo` from it (note the swapped constructor arguments in the
source), delete the file, and report success. -/
def loadPersistedUndo (st : AppState) : AppState × Bool :=
  match st.persisted with
  | none => (st, false)
  | some data => ({ st with undo := deserializeOps data, persisted := none }, true)

/-- `_undo_last` (with the confirmation dialog answered Yes): fall
back to the persisted record when the in-memory one is empty, replay
in reverse order collecting per-item errors, and clear the in-memory
record unconditionally.  Returns the new state and the failed
operations. -/
def undoStep (bad : FsPath → FsPath → Bool) (st : AppState) : AppState × List RenameOp :=
  ({ st with fs := (undoGo bad st.undo.reverse st.fs).1, undo := [] },
    (undoGo bad st.undo.reverse st.fs).2)

def undoLast (bad : FsPath → FsPath → Bool) (st : AppState) : AppState × List RenameOp :=
  if st.undo.isEmpty then
    if (loadPersistedUndo st).2 then undoStep bad (loadPersistedUndo st).1
    else ((loadPersistedUndo st).1, [])
  else undoStep bad st

/-! ### Allocator lemmas -/

theorem uniqueScan_eq_some {ok : Nat → Bool} {i fuel j : Nat}
    (h : uniqueScan ok i fuel = some j) :
    ok j = true ∧ i ≤ j ∧ j < i + fuel ∧ ∀ k, i ≤ k → k < j → ok k = false := by
  induction fuel generalizing i with
  | zero => simp [uniqueScan] at h
  | succ n ih =>
    unfold uniqueScan at h
    by_cases hok : ok i
    · simp [hok] at h
      subst h
      exact ⟨hok, le_refl _, by omega, fun k hk1 hk2 => absurd hk1 (by omega)⟩
    · simp [hok] at h
      obtain ⟨h1, h2, h3, h4⟩ := ih h
      refine ⟨h1, by omega, by omega, fun k hk1 hk2 => ?_⟩
      rcases Nat.eq_or_lt_of_le hk1 with rfl | hlt
      · exact Bool.eq_false_iff.mpr hok
      · exact h4 k hlt hk2

theorem uniqueScan_eq_none {ok : Nat → Bool} {i fuel : Nat} :
    uniqueScan ok i fuel = none ↔ ∀ k, i ≤ k → k < i + fuel → ok k = false := by
  induction fuel generalizing i with
  | zero =>
    constructor
    · intro _ k hk1 hk2; exact absurd hk2 (by omega)
    · intro _; rfl
  | succ n ih =>
    unfold uniqueScan
    by_cases hok : ok i
    · simp only [hok, if_true]
      constructor
      · intro h; exact absurd h (by simp)
      · intro h
        have h2 := h i (le_refl _) (by omega)
        rw [hok] at h2
        exact absurd h2 (by simp)
    · simp only [Bool.eq_false_iff.mpr hok, Bool.false_eq_true, if_false, ih]
      constructor
      · intro h k hk1 hk2
        rcases Nat.eq_or_lt_of_le hk1 with rfl | hlt
        · exact Bool.eq_false_iff.mpr hok
        · exact h k hlt (by omega)
      · intro h k hk1 hk2
        exact h k (by omega) (by omega)

theorem uniqueAlloc_some {ex : FsPath → Bool} {tgt : FsPath} {taken : List FsPath}
    {p : FsPath} {tk : List FsPath}
    (h : uniqueAlloc ex tgt taken = some (p, tk)) :
    tk = p :: taken ∧ p ∉ taken ∧ ex p = false := by
  unfold uniqueAlloc at h
  by_cases hf : freeP ex taken tgt
  · rw [if_pos hf] at h
    injection h with h
    injection h with h1 h2
    subst h1; subst h2
    exact ⟨rfl, hf.1, hf.2⟩
  · rw [if_neg hf] at h
    cases hscan : uniqueScan (fun i => decide (freeP ex taken (candName tgt i))) 1 9999 with
    | none => rw [hscan] at h; exact absurd h (by simp)
    | some j =>
      rw [hscan] at h
      injection h with h
      injection h with h1 h2
      subst h1; subst h2
      have hfree : freeP ex taken (candName tgt j) :=
        of_decide_eq_true (uniqueScan_eq_some hscan).1
      exact ⟨rfl, hfree.1, hfree.2⟩

/-- Claim C4: the allocator returns the desired path unchanged when it
is neither claimed nor on the filesystem; otherwise it returns the
first candidate `stem_N{extension}` (N counting up from 1) that is in
neither, inserting the returned path into the claimed set; and it
fails (ResourceExhausted) exactly when none of the 10,000 attempted
names — the desired path plus candidates 1 through 9999 — is free. -/
theorem claim4_allocator (ex : FsPath → Bool) (tgt : FsPath) (taken : List FsPath) :
    (freeP ex taken tgt → uniqueAlloc ex tgt taken = some (tgt, tgt :: taken)) ∧
    (¬ freeP ex taken tgt →
      ∀ p tk, uniqueAlloc ex tgt taken = some (p, tk) →
        tk = p :: taken ∧
        ∃ i, 1 ≤ i ∧ i < 10000 ∧ p = candName tgt i ∧ freeP ex taken p ∧
          ∀ j, 1 ≤ j → j < i → ¬ freeP ex taken (candName tgt j)) ∧
    (uniqueAlloc ex tgt taken = none ↔
      ¬ freeP ex taken tgt ∧ ∀ i, 1 ≤ i → i < 10000 → ¬ freeP ex taken (candName tgt i)) := by
  refine ⟨fun hf => ?_, fun hnf p tk h => ?_, ?_⟩
  · unfold uniqueAlloc; rw [if_pos hf]
  · unfold uniqueAlloc at h
    rw [if_neg hnf] at h
    cases hscan : uniqueScan (fun i => decide (freeP ex taken (candName tgt i))) 1 9999 with
    | none => rw [hscan] at h; exact absurd h (by simp)
    | some j =>
      rw [hscan] at h
      injection h with h
      injection h with h1 h2
      subst h1; subst h2
      obtain ⟨hj, hj1, hj2, hjmin⟩ := uniqueScan_eq_some hscan
      refine ⟨rfl, j, hj1, by omega, rfl, of_decide_eq_true hj, fun k hk1 hk2 => ?_⟩
      have := hjmin k hk1 hk2
      exact of_decide_eq_false this
  · unfold uniqueAlloc
    by_cases hf : freeP ex taken tgt
    · rw [if_pos hf]
      constructor
      · intro h; exact absurd h (by simp)
      · intro h; exact absurd hf h.1
    · rw [if_neg hf]
      cases hscan : uniqueScan (fun i => decide (freeP ex taken (candName tgt i))) 1 9999 with
      | none =>
        simp only [true_iff]
        refine ⟨hf, fun i hi1 hi2 => ?_⟩
        have := uniqueScan_eq_none.mp hscan i hi1 (by omega)
        exact of_decide_eq_false this
      | some j =>
        simp only
        constructor
        · intro h; exact absurd h (by simp)
        · intro h
          obtain ⟨hj, hj1, hj2, _⟩ := uniqueScan_eq_some hscan
          exact absurd (of_decide_eq_true hj) (h.2 j hj1 (by omega))

/-- Witness for C4: with `a.txt` on disk and an empty claimed set, the
free desired path `b.txt` is returned unchanged and claimed. -/
theorem claim4_allocator_witness :
    uniqueAlloc (fun p => p == (⟨0, ['a','.','t','x','t']⟩ : FsPath))
      ⟨0, ['b','.','t','x','t']⟩ [] =
      some (⟨0, ['b','.','t','x','t']⟩, [⟨0, ['b','.','t','x','t']⟩]) :=
  (claim4_allocator _ _ _).1 (by decide)

/-! ### Generator invariants -/

theorem genStdGo_inv (ex : FsPath → Bool) (bad : List Char) (repl : Option (List Char))
    (exts : Option (List (List Char))) :
    ∀ (entries : List Entry) (taken : List FsPath) (ops : List RenameOp),
    genStdGo ex bad repl exts entries taken = some ops →
    (∀ op ∈ ops, op.tgt ∉ taken ∧ ex op.tgt = false ∧ op.src ∈ entries.map Entry.path) ∧
    (ops.map RenameOp.tgt).Nodup := by
  intro entries
  induction entries with
  | nil =>
    intro taken ops h
    unfold genStdGo at h
    injection h with h
    subst h
    exact ⟨fun op hop => absurd hop (List.not_mem_nil _), List.nodup_nil⟩
  | cons e rest ih =>
    intro taken ops h
    unfold genStdGo at h
    split at h
    · obtain ⟨h1, h2⟩ := ih taken ops h
      exact ⟨fun op hop =>
        ⟨(h1 op hop).1, (h1 op hop).2.1, List.mem_cons_of_mem _ (h1 op hop).2.2⟩, h2⟩
    · split at h
      · obtain ⟨h1, h2⟩ := ih taken ops h
        exact ⟨fun op hop =>
          ⟨(h1 op hop).1, (h1 op hop).2.1, List.mem_cons_of_mem _ (h1 op hop).2.2⟩, h2⟩
      · split at h
        · exact absurd h (by simp)
        · rename_i pr halloc
          split at h
          · exact absurd h (by simp)
          · rename_i ops' hrest
            injection h with h
            subst h
            obtain ⟨htk, hnin, hexf⟩ := uniqueAlloc_some halloc
            obtain ⟨h1, h2⟩ := ih pr.2 ops' hrest
            constructor
            · intro op hop
              rcases List.mem_cons.mp hop with rfl | hop'
              · exact ⟨hnin, hexf, List.mem_cons_self _ _⟩
              · have h3 := h1 op hop'
                rw [htk] at h3
                exact ⟨fun hmem => h3.1 (List.mem_cons_of_mem _ hmem), h3.2.1,
                  List.mem_cons_of_mem _ h3.2.2⟩
            · rw [List.map_cons]
              refine List.nodup_cons.mpr ⟨?_, h2⟩
              intro hmem
              obtain ⟨op, hop, heq⟩ := List.mem_map.mp hmem
              have h3 := h1 op hop
              rw [htk] at h3
              exact h3.1 (heq ▸ List.mem_cons_self _ _)

theorem genSeqGo_inv (ex : FsPath → Bool) (pre : List Char)
    (exts : Option (List (List Char))) :
    ∀ (entries : List Entry) (n : Nat) (taken : List FsPath) (ops : List RenameOp),
    genSeqGo ex pre exts entries n taken = some ops →
    (∀ op ∈ ops, op.tgt ∉ taken ∧ ex op.tgt = false ∧ op.src ∈ entries.map Entry.path) ∧
    (ops.map RenameOp.tgt).Nodup := by
  intro entries
  induction entries with
  | nil =>
    intro n taken ops h
    unfold genSeqGo at h
    injection h with h
    subst h
    exact ⟨fun op hop => absurd hop (List.not_mem_nil _), List.nodup_nil⟩
  | cons e rest ih =>
    intro n taken ops h
    unfold genSeqGo at h
    split at h
    · obtain ⟨h1, h2⟩ := ih n taken ops h
      exact ⟨fun op hop =>
        ⟨(h1 op hop).1, (h1 op hop).2.1, List.mem_cons_of_mem _ (h1 op hop).2.2⟩, h2⟩
    · split at h
      · exact absurd h (by simp)
      · rename_i pr halloc
        split at h
        · exact absurd h (by simp)
        · rename_i ops' hrest
          injection h with h
          subst h
          obtain ⟨htk, hnin, hexf⟩ := uniqueAlloc_some halloc
          obtain ⟨h1, h2⟩ := ih (n + 1) pr.2 ops' hrest
          constructor
          · intro op hop
            rcases List.mem_cons.mp hop with rfl | hop'
            · exact ⟨hnin, hexf, List.mem_cons_self _ _⟩
            · have h3 := h1 op hop'
              rw [htk] at h3
              exact ⟨fun hmem => h3.1 (List.mem_cons_of_mem _ hmem), h3.2.1,
                List.mem_cons_of_mem _ h3.2.2⟩
          · rw [List.map_cons]
            refine List.nodup_cons.mpr ⟨?_, h2⟩
            intro hmem
            obtain ⟨op, hop, heq⟩ := List.mem_map.mp hmem
            have h3 := h1 op hop
            rw [htk] at h3
            exact h3.1 (heq ▸ List.mem_cons_self _ _)

theorem genRexGo_inv (ex : FsPath → Bool) (sub : List Char → List Char)
    (exts : Option (List (List Char))) :
    ∀ (entries : List Entry) (taken : List FsPath) (ops : List RenameOp),
    genRexGo ex sub exts entries taken = some ops →
    (∀ op ∈ ops, op.tgt ∉ taken ∧ ex op.tgt = false ∧ op.src ∈ entries.map Entry.path) ∧
    (ops.map RenameOp.tgt).Nodup := by
  intro entries
  induction entries with
  | nil =>
    intro taken ops h
    unfold genRexGo at h
    injection h with h
    subst h
    exact ⟨fun op hop => absurd hop (List.not_mem_nil _), List.nodup_nil⟩
  | cons e rest ih =>
    intro taken ops h
    unfold genRexGo at h
    split at h
    · obtain ⟨h1, h2⟩ := ih taken ops h
      exact ⟨fun op hop =>
        ⟨(h1 op hop).1, (h1 op hop).2.1, List.mem_cons_of_mem _ (h1 op hop).2.2⟩, h2⟩
    · split at h
      · obtain ⟨h1, h2⟩ := ih taken ops h
        exact ⟨fun op hop =>
          ⟨(h1 op hop).1, (h1 op hop).2.1, List.mem_cons_of_mem _ (h1 op hop).2.2⟩, h2⟩
      · split at h
        · exact absurd h (by simp)
        · rename_i pr halloc
          split at h
          · exact absurd h (by simp)
          · rename_i ops' hrest
            injection h with h
            subst h
            obtain ⟨htk, hnin, hexf⟩ := uniqueAlloc_some halloc
            obtain ⟨h1, h2⟩ := ih pr.2 ops' hrest
            constructor
            · intro op hop
              rcases List.mem_cons.mp hop with rfl | hop'
              · exact ⟨hnin, hexf, List.mem_cons_self _ _⟩
              · have h3 := h1 op hop'
                rw [htk] at h3
                exact ⟨fun hmem => h3.1 (List.mem_cons_of_mem _ hmem), h3.2.1,
                  List.mem_cons_of_mem _ h3.2.2⟩
            · rw [List.map_cons]
              refine List.nodup_cons.mpr ⟨?_, h2⟩
              intro hmem
              obtain ⟨op, hop, heq⟩ := List.mem_map.mp hmem
              have h3 := h1 op hop
              rw [htk] at h3
              exact h3.1 (heq ▸ List.mem_cons_self _ _)

theorem genMetaGo_inv (ex : FsPath → Bool) (photoTs : FsPath → Option (List Char))
    (pref : List Char) :
    ∀ (entries : List Entry) (taken : List FsPath) (ops : List RenameOp),
    genMetaGo ex photoTs pref entries taken = some ops →
    (∀ op ∈ ops, op.tgt ∉ taken ∧ ex op.tgt = false ∧ op.src ∈ entries.map Entry.path) ∧
    (ops.map RenameOp.tgt).Nodup := by
  intro entries
  induction entries with
  | nil =>
    intro taken ops h
    unfold genMetaGo at h
    injection h with h
    subst h
    exact ⟨fun op hop => absurd hop (List.not_mem_nil _), List.nodup_nil⟩
  | cons e rest ih =>
    intro taken ops h
    unfold genMetaGo at h
    split at h
    · obtain ⟨h1, h2⟩ := ih taken ops h
      exact ⟨fun op hop =>
        ⟨(h1 op hop).1, (h1 op hop).2.1, List.mem_cons_of_mem _ (h1 op hop).2.2⟩, h2⟩
    · split at h
      · obtain ⟨h1, h2⟩ := ih taken ops h
        exact ⟨fun op hop =>
          ⟨(h1 op hop).1, (h1 op hop).2.1, List.mem_cons_of_mem _ (h1 op hop).2.2⟩, h2⟩
      · split at h
        · exact absurd h (by simp)
        · rename_i pr halloc
          split at h
          · exact absurd h (by simp)
          · rename_i ops' hrest
            injection h with h
            subst h
            obtain ⟨htk, hnin, hexf⟩ := uniqueAlloc_some halloc
            obtain ⟨h1, h2⟩ := ih pr.2 ops' hrest
            constructor
            · intro op hop
              rcases List.mem_cons.mp hop with rfl | hop'
              · exact ⟨hnin, hexf, List.mem_cons_self _ _⟩
              · have h3 := h1 op hop'
                rw [htk] at h3
                exact ⟨fun hmem => h3.1 (List.mem_cons_of_mem _ hmem), h3.2.1,
                  List.mem_cons_of_mem _ h3.2.2⟩
            · rw [List.map_cons]
              refine List.nodup_cons.mpr ⟨?_, h2⟩
              intro hmem
              obtain ⟨op, hop, heq⟩ := List.mem_map.mp hmem
              have h3 := h1 op hop
              rw [htk] at h3
              exact h3.1 (heq ▸ List.mem_cons_self _ _)

/-- Claim C5: in every plan produced by any of the four generators
(against the filesystem snapshot `ex` fixed at plan-generation time),
target paths are pairwise distinct, and no target equals a path that
existed on the filesystem when it was allocated. -/
theorem claim5_targets_fresh (ex : FsPath → Bool) (entries : List Entry)
    (bad : List Char) (repl : Option (List Char)) (exts : Option (List (List Char)))
    (pre : List Char) (start : Nat) (sub : List Char → List Char)
    (pillow : Bool) (photoTs : FsPath → Option (List Char)) (pref : List Char) :
    (∀ ops, generate_standard ex entries bad repl exts = some ops →
      (ops.map RenameOp.tgt).Nodup ∧ ∀ op ∈ ops, ex op.tgt = false) ∧
    (∀ ops, generate_sequential ex entries pre start exts = some ops →
      (ops.map RenameOp.tgt).Nodup ∧ ∀ op ∈ ops, ex op.tgt = false) ∧
    (∀ ops, generate_regex ex entries sub exts = some ops →
      (ops.map RenameOp.tgt).Nodup ∧ ∀ op ∈ ops, ex op.tgt = false) ∧
    (∀ ops, generate_metadata ex pillow photoTs entries pref exts = some ops →
      (ops.map RenameOp.tgt).Nodup ∧ ∀ op ∈ ops, ex op.tgt = false) := by
  refine ⟨fun ops h => ?_, fun ops h => ?_, fun ops h => ?_, fun ops h => ?_⟩
  · obtain ⟨h1, h2⟩ := genStdGo_inv ex bad repl exts entries [] ops h
    exact ⟨h2, fun op hop => (h1 op hop).2.1⟩
  · obtain ⟨h1, h2⟩ := genSeqGo_inv ex pre exts entries start [] ops h
    exact ⟨h2, fun op hop => (h1 op hop).2.1⟩
  · obtain ⟨h1, h2⟩ := genRexGo_inv ex sub exts entries [] ops h
    exact ⟨h2, fun op hop => (h1 op hop).2.1⟩
  · unfold generate_metadata at h
    by_cases hp : pillow = true
    · rw [if_pos hp] at h
      obtain ⟨h1, h2⟩ := genMetaGo_inv ex photoTs pref entries [] ops h
      exact ⟨h2, fun op hop => (h1 op hop).2.1⟩
    · rw [if_neg hp] at h
      exact absurd h (by simp)

/-- Witness for C5: running the four generators over a folder holding
only `a b.txt`, the allocated targets of the non-empty plans differ
from the one existing path. -/
theorem claim5_targets_fresh_witness :
    ((⟨0, ['a','_','b','.','t','x','t']⟩ : FsPath) ==
      (⟨0, ['a',' ','b','.','t','x','t']⟩ : FsPath)) = false ∧
    ((⟨0, ['i','5','.','t','x','t']⟩ : FsPath) ==
      (⟨0, ['a',' ','b','.','t','x','t']⟩ : FsPath)) = false ∧
    ((⟨0, ['x','a',' ','b','.','t','x','t']⟩ : FsPath) ==
      (⟨0, ['a',' ','b','.','t','x','t']⟩ : FsPath)) = false := by
  have h := claim5_targets_fresh
    (fun p => p == ⟨0, ['a',' ','b','.','t','x','t']⟩)
    [⟨⟨0, ['a',' ','b','.','t','x','t']⟩, true, false⟩]
    [':'] (some ['_']) none ['i'] 5 (fun l => 'x' :: l) true (fun _ => none) []
  refine ⟨?_, ?_, ?_⟩
  · exact (h.1 [⟨⟨0, ['a',' ','b','.','t','x','t']⟩, ⟨0, ['a','_','b','.','t','x','t']⟩⟩]
      (by decide)).2 _ (List.mem_cons_self _ _)
  · exact (h.2.1 [⟨⟨0, ['a',' ','b','.','t','x','t']⟩, ⟨0, ['i','5','.','t','x','t']⟩⟩]
      (by decide)).2 _ (List.mem_cons_self _ _)
  · exact (h.2.2.1 [⟨⟨0, ['a',' ','b','.','t','x','t']⟩,
      ⟨0, ['x','a',' ','b','.','t','x','t']⟩⟩] (by decide)).2 _ (List.mem_cons_self _ _)

/-! ### Claim C2: no-op skipping across the generators -/

theorem genStdGo_all_unchanged (ex : FsPath → Bool) (bad : List Char)
    (repl : Option (List Char)) (exts : Option (List (List Char))) :
    ∀ (entries : List Entry) (taken : List FsPath),
    (∀ e ∈ entries, sanitise e.path.name bad repl = e.path.name) →
    genStdGo ex bad repl exts entries taken = some [] := by
  intro entries
  induction entries with
  | nil => intro taken _; rfl
  | cons e rest ih =>
    intro taken hall
    unfold genStdGo
    have hrest := ih taken (fun e' he' => hall e' (List.mem_cons_of_mem _ he'))
    by_cases hrej : extReject exts e = true
    · rw [if_pos hrej]; exact hrest
    · rw [if_neg hrej, if_pos (hall e (List.mem_cons_self _ _))]; exact hrest

theorem genRexGo_all_unchanged (ex : FsPath → Bool) (sub : List Char → List Char)
    (exts : Option (List (List Char))) :
    ∀ (entries : List Entry) (taken : List FsPath),
    (∀ e ∈ entries, sub e.path.name = e.path.name) →
    genRexGo ex sub exts entries taken = some [] := by
  intro entries
  induction entries with
  | nil => intro taken _; rfl
  | cons e rest ih =>
    intro taken hall
    unfold genRexGo
    have hrest := ih taken (fun e' he' => hall e' (List.mem_cons_of_mem _ he'))
    by_cases hrej : extReject exts e = true
    · rw [if_pos hrej]; exact hrest
    · rw [if_neg hrej, if_pos (hall e (List.mem_cons_self _ _))]; exact hrest

/-- Counterexample for C2: the sequential generator does not skip
no-op renames.  For the file `item1.txt` with prefix `item` and start
counter 1, the derived desired name equals the current name, yet an
operation is still appended — the allocator bumps the target to
`item1_1.txt` because the desired path exists (it is the source
itself). -/
theorem claim2_counterexample :
    (['i','t','e','m'] ++ natChars 1 ++ pySuffix ['i','t','e','m','1','.','t','x','t'] =
      ['i','t','e','m','1','.','t','x','t']) ∧
    generate_sequential (fun p => p == ⟨0, ['i','t','e','m','1','.','t','x','t']⟩)
      [⟨⟨0, ['i','t','e','m','1','.','t','x','t']⟩, true, false⟩] ['i','t','e','m'] 1 none =
      some [⟨⟨0, ['i','t','e','m','1','.','t','x','t']⟩,
            ⟨0, ['i','t','e','m','1','_','1','.','t','x','t']⟩⟩] ∧
    generate_sequential (fun p => p == ⟨0, ['i','t','e','m','1','.','t','x','t']⟩)
      [⟨⟨0, ['i','t','e','m','1','.','t','x','t']⟩, true, false⟩] ['i','t','e','m'] 1 none ≠
      some [] := by
  refine ⟨by decide, by decide, by decide⟩

/-- Claim C2 (amended): in all four generators, whenever every input
entry's source path exists on the filesystem snapshot, every appended
operation's allocated target differs from the entry's source path.
The standard and regex generators additionally skip entries whose
derived desired name equals their current name (an all-unchanged input
yields an empty plan); the sequential and metadata generators do not
skip such entries — they still rename them, to a collision-suffixed
target. -/
theorem claim2_amended (ex : FsPath → Bool) (entries : List Entry)
    (bad : List Char) (repl : Option (List Char)) (exts : Option (List (List Char)))
    (pre : List Char) (start : Nat) (sub : List Char → List Char)
    (pillow : Bool) (photoTs : FsPath → Option (List Char)) (pref : List Char)
    (hex : ∀ e ∈ entries, ex e.path = true) :
    (∀ ops, generate_standard ex entries bad repl exts = some ops →
      ∀ op ∈ ops, op.tgt ≠ op.src) ∧
    (∀ ops, generate_sequential ex entries pre start exts = some ops →
      ∀ op ∈ ops, op.tgt ≠ op.src) ∧
    (∀ ops, generate_regex ex entries sub exts = some ops →
      ∀ op ∈ ops, op.tgt ≠ op.src) ∧
    (∀ ops, generate_metadata ex pillow photoTs entries pref exts = some ops →
      ∀ op ∈ ops, op.tgt ≠ op.src) ∧
    ((∀ e ∈ entries, sanitise e.path.name bad repl = e.path.name) →
      generate_standard ex entries bad repl exts = some []) ∧
    ((∀ e ∈ entries, sub e.path.name = e.path.name) →
      generate_regex ex entries sub exts = some []) := by
  have hsrc : ∀ (op : RenameOp), ex op.tgt = false → op.src ∈ entries.map Entry.path →
      op.tgt ≠ op.src := by
    intro op htgt hmem heq
    obtain ⟨e, he, hpe⟩ := List.mem_map.mp hmem
    have := hex e he
    rw [hpe, ← heq, htgt] at this
    exact absurd this (by simp)
  refine ⟨fun ops h op hop => ?_, fun ops h op hop => ?_, fun ops h op hop => ?_,
    fun ops h op hop => ?_, fun hall => genStdGo_all_unchanged ex bad repl exts entries [] hall,
    fun hall => genRexGo_all_unchanged ex sub exts entries [] hall⟩
  · obtain ⟨h1, _⟩ := genStdGo_inv ex bad repl exts entries [] ops h
    exact hsrc op (h1 op hop).2.1 (h1 op hop).2.2
  · obtain ⟨h1, _⟩ := genSeqGo_inv ex pre exts entries start [] ops h
    exact hsrc op (h1 op hop).2.1 (h1 op hop).2.2
  · obtain ⟨h1, _⟩ := genRexGo_inv ex sub exts entries [] ops h
    exact hsrc op (h1 op hop).2.1 (h1 op hop).2.2
  · unfold generate_metadata at h
    by_cases hp : pillow = true
    · rw [if_pos hp] at h
      obtain ⟨h1, _⟩ := genMetaGo_inv ex photoTs pref entries [] ops h
      exact hsrc op (h1 op hop).2.1 (h1 op hop).2.2
    · rw [if_neg hp] at h
      exact absurd h (by simp)

/-- Witness for the amended C2: on the sequential counterexample input
the single appended operation's target `item1_1.txt` indeed differs
from its source `item1.txt`. -/
theorem claim2_amended_witness :
    (⟨0, ['i','t','e','m','1','_','1','.','t','x','t']⟩ : FsPath) ≠
      ⟨0, ['i','t','e','m','1','.','t','x','t']⟩ := by
  have h := claim2_amended (fun p => p == ⟨0, ['i','t','e','m','1','.','t','x','t']⟩)
    [⟨⟨0, ['i','t','e','m','1','.','t','x','t']⟩, true, false⟩]
    [] none none ['i','t','e','m'] 1 (fun l => l) true (fun _ => none) []
    (by decide)
  exact h.2.1 [⟨⟨0, ['i','t','e','m','1','.','t','x','t']⟩,
    ⟨0, ['i','t','e','m','1','_','1','.','t','x','t']⟩⟩] (by decide) _
    (List.mem_cons_self _ _)

/-! ### Filesystem and executor lemmas -/

theorem fsFind_cons (k : FsPath) (v : Nat) (fs : Fs) (p : FsPath) :
    fsFind ((k, v) :: fs) p = if k = p then some v else fsFind fs p := rfl

theorem fsFind_eraseKey (q : FsPath) (fs : Fs) (p : FsPath) :
    fsFind (eraseKey q fs) p = if p = q then none else fsFind fs p := by
  induction fs with
  | nil => simp [eraseKey, fsFind]
  | cons kv rest ih =>
    by_cases hk : kv.1 = q
    · have : eraseKey q (kv :: rest) = eraseKey q rest := by
        simp [eraseKey, List.filter, hk]
      rw [this, ih]
      by_cases hp : p = q
      · simp [hp]
      · simp only [if_neg hp]
        rw [show fsFind (kv :: rest) p = if kv.1 = p then some kv.2 else fsFind rest p from rfl]
        rw [if_neg (fun h => hp (by rw [← h, hk]))]
    · have : eraseKey q (kv :: rest) = kv :: eraseKey q rest := by
        simp [eraseKey, List.filter, hk]
      rw [this]
      rw [show fsFind (kv :: eraseKey q rest) p =
        if kv.1 = p then some kv.2 else fsFind (eraseKey q rest) p from rfl]
      rw [show fsFind (kv :: rest) p = if kv.1 = p then some kv.2 else fsFind rest p from rfl]
      by_cases hkp : kv.1 = p
      · rw [if_pos hkp, if_neg (fun h => hk (by rw [hkp, h])), if_pos hkp]
      · rw [if_neg hkp, if_neg hkp, ih]

theorem eraseKey_of_not_found {q : FsPath} {fs : Fs} (h : fsFind fs q = none) :
    eraseKey q fs = fs := by
  induction fs with
  | nil => rfl
  | cons kv rest ih =>
    rw [show fsFind (kv :: rest) q = if kv.1 = q then some kv.2 else fsFind rest q from rfl] at h
    by_cases hk : kv.1 = q
    · rw [if_pos hk] at h; exact absurd h (by simp)
    · rw [if_neg hk] at h
      have : eraseKey q (kv :: rest) = kv :: eraseKey q rest := by
        simp [eraseKey, List.filter, hk]
      rw [this, ih h]

/-- Net effect of one executed operation: the entry at the source is
rebound to the target (total helper; the executor is proved to realise
it when the staged move goes through a fresh temporary name). -/
def fsMoveD (fs : Fs) (op : RenameOp) : Fs :=
  match fsFind fs op.src with
  | none => fs
  | some v => (op.tgt, v) :: eraseKey op.src fs

theorem fsFind_fsMoveD {fs : Fs} {op : RenameOp} {v : Nat}
    (hv : fsFind fs op.src = some v) (p : FsPath) :
    fsFind (fsMoveD fs op) p =
      if p = op.tgt then some v else if p = op.src then none else fsFind fs p := by
  unfold fsMoveD
  rw [hv]
  rw [fsFind_cons]
  by_cases hp : p = op.tgt
  · rw [if_pos hp, if_pos hp.symm]
  · rw [if_neg hp, if_neg (fun h => hp h.symm), fsFind_eraseKey]

/-- The plan/filesystem consistency that a freshly generated plan
enjoys absent external interference: all sources present, sources and
targets duplicate-free, targets and staging names absent from the
filesystem and not clashing with sources or with each other. -/
def PlanOk (ops : List RenameOp) (fs : Fs) : Prop :=
  (∀ op ∈ ops, fsFind fs op.src ≠ none) ∧
  (ops.map RenameOp.src).Nodup ∧
  (ops.map RenameOp.tgt).Nodup ∧
  (∀ op ∈ ops, fsFind fs op.tgt = none) ∧
  (∀ o1 ∈ ops, ∀ o2 ∈ ops, o1.tgt ≠ o2.src) ∧
  (∀ op ∈ ops, fsFind fs (tmpPath op.src) = none) ∧
  (∀ o1 ∈ ops, ∀ o2 ∈ ops, tmpPath o1.src ≠ o2.tgt)

instance (ops : List RenameOp) (fs : Fs) : Decidable (PlanOk ops fs) := by
  unfold PlanOk; infer_instance

theorem planOk_step {op : RenameOp} {ops : List RenameOp} {fs : Fs}
    (h : PlanOk (op :: ops) fs) : PlanOk ops (fsMoveD fs op) := by
  obtain ⟨hs, hsn, htn, htf, hts, hmf, hmt⟩ := h
  obtain ⟨v, hv⟩ := Option.ne_none_iff_exists'.mp (hs op (List.mem_cons_self _ _))
  have hmem : ∀ o ∈ ops, o ∈ op :: ops := fun o ho => List.mem_cons_of_mem _ ho
  have hsn2 : op.src ∉ ops.map RenameOp.src ∧ (ops.map RenameOp.src).Nodup := by
    rw [List.map_cons] at hsn; exact List.nodup_cons.mp hsn
  have htn2 : op.tgt ∉ ops.map RenameOp.tgt ∧ (ops.map RenameOp.tgt).Nodup := by
    rw [List.map_cons] at htn; exact List.nodup_cons.mp htn
  have hsrcne : ∀ o ∈ ops, o.src ≠ op.src := by
    intro o ho heq
    exact hsn2.1 (heq ▸ List.mem_map_of_mem RenameOp.src ho)
  have htgtne : ∀ o ∈ ops, o.tgt ≠ op.tgt := by
    intro o ho heq
    exact htn2.1 (heq ▸ List.mem_map_of_mem RenameOp.tgt ho)
  refine ⟨?_, hsn2.2, htn2.2, ?_,
    fun o1 h1 o2 h2 => hts o1 (hmem o1 h1) o2 (hmem o2 h2), ?_,
    fun o1 h1 o2 h2 => hmt o1 (hmem o1 h1) o2 (hmem o2 h2)⟩
  · intro o ho
    rw [fsFind_fsMoveD hv]
    rw [if_neg (fun heq => hts op (List.mem_cons_self _ _) o (hmem o ho) heq.symm)]
    rw [if_neg (hsrcne o ho)]
    exact hs o (hmem o ho)
  · intro o ho
    rw [fsFind_fsMoveD hv]
    rw [if_neg (htgtne o ho)]
    by_cases hos : o.tgt = op.src
    · rw [if_pos hos]
    · rw [if_neg hos]
      exact htf o (hmem o ho)
  · intro o ho
    rw [fsFind_fsMoveD hv]
    rw [if_neg (hmt o (hmem o ho) op (List.mem_cons_self _ _))]
    by_cases hos : tmpPath o.src = op.src
    · rw [if_pos hos]
    · rw [if_neg hos]
      exact hmf o (hmem o ho)

theorem execAux_ok :
    ∀ (ops : List RenameOp) (fs : Fs), PlanOk ops fs →
    execAux noFail ops fs = (List.foldl fsMoveD fs ops, ops.length, true) := by
  intro ops
  induction ops with
  | nil => intro fs _; rfl
  | cons op rest ih =>
    intro fs h
    obtain ⟨v, hv⟩ := Option.ne_none_iff_exists'.mp (h.1 op (List.mem_cons_self _ _))
    have htmpfree : fsFind fs (tmpPath op.src) = none :=
      h.2.2.2.2.2.1 op (List.mem_cons_self _ _)
    have hm1 : moveO noFail fs op.src (tmpPath op.src) =
        some ((tmpPath op.src, v) :: eraseKey op.src fs) := by
      unfold moveO noFail fsMove
      rw [if_neg (by simp), hv]
    have hm2 : moveO noFail ((tmpPath op.src, v) :: eraseKey op.src fs)
        (tmpPath op.src) op.tgt = some (fsMoveD fs op) := by
      unfold moveO noFail fsMove
      rw [if_neg (by simp)]
      rw [show fsFind ((tmpPath op.src, v) :: eraseKey op.src fs) (tmpPath op.src) =
        if tmpPath op.src = tmpPath op.src then some v
        else fsFind (eraseKey op.src fs) (tmpPath op.src) from rfl]
      rw [if_pos rfl]
      unfold fsMoveD
      rw [hv]
      have herase : eraseKey (tmpPath op.src) ((tmpPath op.src, v) :: eraseKey op.src fs) =
          eraseKey op.src fs := by
        have h1 : eraseKey (tmpPath op.src) ((tmpPath op.src, v) :: eraseKey op.src fs) =
            eraseKey (tmpPath op.src) (eraseKey op.src fs) := by
          simp [eraseKey, List.filter]
        rw [h1]
        apply eraseKey_of_not_found
        rw [fsFind_eraseKey]
        by_cases hq : tmpPath op.src = op.src
        · rw [if_pos hq]
        · rw [if_neg hq]; exact htmpfree
      rw [herase]
    unfold execAux
    simp only [hm1, hm2]
    rw [ih (fsMoveD fs op) (planOk_step h)]
    simp [List.foldl_cons, List.length_cons]

theorem undoGo_cons (bad : FsPath → FsPath → Bool) (op : RenameOp)
    (rest : List RenameOp) (fs : Fs) :
    undoGo bad (op :: rest) fs =
      match moveO bad fs op.tgt op.src with
      | none => ((undoGo bad rest fs).1, op :: (undoGo bad rest fs).2)
      | some fs' => undoGo bad rest fs' := rfl

theorem undoGo_append (bad : FsPath → FsPath → Bool) :
    ∀ (l1 l2 : List RenameOp) (fs : Fs),
    undoGo bad (l1 ++ l2) fs =
      ((undoGo bad l2 (undoGo bad l1 fs).1).1,
        (undoGo bad l1 fs).2 ++ (undoGo bad l2 (undoGo bad l1 fs).1).2) := by
  intro l1
  induction l1 with
  | nil => intro l2 fs; simp [undoGo]
  | cons op rest ih =>
    intro l2 fs
    rw [List.cons_append, undoGo_cons, undoGo_cons bad op rest fs]
    cases hm : moveO bad fs op.tgt op.src with
    | none =>
      simp only []
      rw [ih]
      simp
    | some fs' =>
      simp only []
      exact ih l2 fs'

theorem undo_restores :
    ∀ (ops : List RenameOp) (fs : Fs), PlanOk ops fs →
    (undoGo noFail ops.reverse (List.foldl fsMoveD fs ops)).2 = [] ∧
    ∀ p, fsFind (undoGo noFail ops.reverse (List.foldl fsMoveD fs ops)).1 p = fsFind fs p := by
  intro ops
  induction ops with
  | nil => intro fs _; exact ⟨rfl, fun p => rfl⟩
  | cons op rest ih =>
    intro fs h
    obtain ⟨v, hv⟩ := Option.ne_none_iff_exists'.mp (h.1 op (List.mem_cons_self _ _))
    have htgtfree : fsFind fs op.tgt = none := h.2.2.2.1 op (List.mem_cons_self _ _)
    have hsrcnetgt : op.src ≠ op.tgt := by
      intro heq
      rw [heq, htgtfree] at hv
      exact absurd hv (by simp)
    obtain ⟨ih2, ih1⟩ := ih (fsMoveD fs op) (planOk_step h)
    rw [List.reverse_cons, List.foldl_cons, undoGo_append]
    set fs2 := (undoGo noFail rest.reverse (List.foldl fsMoveD (fsMoveD fs op) rest)).1 with hfs2
    have hfind2 : ∀ p, fsFind fs2 p = fsFind (fsMoveD fs op) p := ih1
    have hmv : moveO noFail fs2 op.tgt op.src =
        some ((op.src, v) :: eraseKey op.tgt fs2) := by
      unfold moveO noFail fsMove
      rw [if_neg (by simp)]
      rw [hfind2 op.tgt, fsFind_fsMoveD hv, if_pos rfl]
    have hgo : undoGo noFail [op] fs2 = ((op.src, v) :: eraseKey op.tgt fs2, []) := by
      rw [undoGo_cons, hmv]
      rfl
    rw [hgo, ih2]
    refine ⟨rfl, fun p => ?_⟩
    rw [fsFind_cons]
    by_cases hp : op.src = p
    · rw [if_pos hp, ← hp, hv]
    · rw [if_neg hp, fsFind_eraseKey]
      by_cases hpt : p = op.tgt
      · rw [if_pos hpt, hpt, htgtfree]
      · rw [if_neg hpt, hfind2, fsFind_fsMoveD hv, if_neg hpt,
          if_neg (fun heq => hp heq.symm)]

/-- Claim C1: for a plan whose execution fully succeeds (its sources
exist, sources/targets/staging names are duplicate-free and
unclaimed — `PlanOk` — and no external failure occurs), the executor
commits every operation through its staging name and reports success,
and replaying the captured in-memory undo record in reverse plan order
(move target back onto source, as `_undo_last` does) restores every
path to its pre-execution binding, with no undo errors. -/
theorem claim1_exec_undo_roundtrip (ops : List RenameOp) (fs : Fs) (h : PlanOk ops fs) :
    (execAux noFail ops fs).2 = (ops.length, true) ∧
    (undoGo noFail ops.reverse (execAux noFail ops fs).1).2 = [] ∧
    ∀ p, fsFind (undoGo noFail ops.reverse (execAux noFail ops fs).1).1 p = fsFind fs p := by
  rw [execAux_ok ops fs h]
  exact ⟨rfl, (undo_restores ops fs h).1, (undo_restores ops fs h).2⟩

/-- Witness for C1: a two-operation plan over a two-file directory
executes fully and the undo replay puts both entries back. -/
theorem claim1_exec_undo_roundtrip_witness :
    (execAux noFail
      [⟨⟨0, ['a']⟩, ⟨0, ['c']⟩⟩, ⟨⟨0, ['b']⟩, ⟨0, ['d']⟩⟩]
      [(⟨0, ['a']⟩, 10), (⟨0, ['b']⟩, 20)]).2 = (2, true) ∧
    fsFind (undoGo noFail
      ([⟨⟨0, ['a']⟩, ⟨0, ['c']⟩⟩, ⟨⟨0, ['b']⟩, ⟨0, ['d']⟩⟩] :
        List RenameOp).reverse
      (execAux noFail
        [⟨⟨0, ['a']⟩, ⟨0, ['c']⟩⟩, ⟨⟨0, ['b']⟩, ⟨0, ['d']⟩⟩]
        [(⟨0, ['a']⟩, 10), (⟨0, ['b']⟩, 20)]).1).1 ⟨0, ['a']⟩ = some 10 := by
  have h := claim1_exec_undo_roundtrip
    [⟨⟨0, ['a']⟩, ⟨0, ['c']⟩⟩, ⟨⟨0, ['b']⟩, ⟨0, ['d']⟩⟩]
    [(⟨0, ['a']⟩, 10), (⟨0, ['b']⟩, 20)] (by decide)
  refine ⟨h.1, ?_⟩
  rw [h.2.2 ⟨0, ['a']⟩]
  rfl

theorem execAux_cons (bad : FsPath → FsPath → Bool) (op : RenameOp)
    (rest : List RenameOp) (fs : Fs) :
    execAux bad (op :: rest) fs =
      match moveO bad fs op.src (tmpPath op.src) with
      | none => (fs, 0, false)
      | some fs1 =>
        match moveO bad fs1 (tmpPath op.src) op.tgt with
        | none => (fs1, 0, false)
        | some fs2 =>
          ((execAux bad rest fs2).1, (execAux bad rest fs2).2.1 + 1,
            (execAux bad rest fs2).2.2) := rfl

theorem execAux_append (bad : FsPath → FsPath → Bool) :
    ∀ (l1 l2 : List RenameOp) (fs : Fs),
    execAux bad (l1 ++ l2) fs =
      if (execAux bad l1 fs).2.2 then
        ((execAux bad l2 (execAux bad l1 fs).1).1,
          (execAux bad l1 fs).2.1 + (execAux bad l2 (execAux bad l1 fs).1).2.1,
          (execAux bad l2 (execAux bad l1 fs).1).2.2)
      else execAux bad l1 fs := by
  intro l1
  induction l1 with
  | nil =>
    intro l2 fs
    simp [execAux]
  | cons op rest ih =>
    intro l2 fs
    rw [List.cons_append]
    cases hm1 : moveO bad fs op.src (tmpPath op.src) with
    | none => simp only [execAux_cons, hm1]; simp
    | some fs1 =>
      cases hm2 : moveO bad fs1 (tmpPath op.src) op.tgt with
      | none => simp only [execAux_cons, hm1, hm2]; simp
      | some fs2 =>
        simp only [execAux_cons, hm1, hm2, ih]
        by_cases hok : (execAux bad rest fs2).2.2 = true
        · simp only [hok, if_true, Prod.mk.injEq]
          refine ⟨trivial, by omega, trivial⟩
        · simp only [Bool.not_eq_true] at hok
          simp [hok]

theorem fsFind_moveO_some {bad : FsPath → FsPath → Bool} {fs fs' : Fs} {s d p : FsPath}
    (h : moveO bad fs s d = some fs') (hd : p ≠ d) (hs : p ≠ s) :
    fsFind fs' p = fsFind fs p := by
  unfold moveO fsMove at h
  by_cases hb : bad s d = true
  · rw [if_pos hb] at h; exact absurd h (by simp)
  · rw [if_neg hb] at h
    cases hv : fsFind fs s with
    | none => rw [hv] at h; exact absurd h (by simp)
    | some v =>
      rw [hv] at h
      injection h with h
      subst h
      rw [fsFind_cons, if_neg (fun heq => hd heq.symm), fsFind_eraseKey, if_neg hs]

/-- Frame property of the executor: a path that is none of an
operation's source, staging name or target is never touched, even by
a failing run. -/
theorem execAux_frame (bad : FsPath → FsPath → Bool) :
    ∀ (ops : List RenameOp) (fs : Fs) (p : FsPath),
    (∀ op ∈ ops, p ≠ op.src ∧ p ≠ tmpPath op.src ∧ p ≠ op.tgt) →
    fsFind (execAux bad ops fs).1 p = fsFind fs p := by
  intro ops
  induction ops with
  | nil => intro fs p _; rfl
  | cons op rest ih =>
    intro fs p hp
    obtain ⟨hp1, hp2, hp3⟩ := hp op (List.mem_cons_self _ _)
    have hrest := fun o ho => hp o (List.mem_cons_of_mem _ ho)
    cases hm1 : moveO bad fs op.src (tmpPath op.src) with
    | none => simp only [execAux_cons, hm1]
    | some fs1 =>
      have hf1 : fsFind fs1 p = fsFind fs p := fsFind_moveO_some hm1 hp2 hp1
      cases hm2 : moveO bad fs1 (tmpPath op.src) op.tgt with
      | none =>
        simp only [execAux_cons, hm1, hm2]
        exact hf1
      | some fs2 =>
        have hf2 : fsFind fs2 p = fsFind fs1 p := fsFind_moveO_some hm2 hp3 hp2
        simp only [execAux_cons, hm1, hm2]
        rw [ih fs2 p hrest, hf2, hf1]

theorem execAux_cons_fail {bad : FsPath → FsPath → Bool} {op : RenameOp} {fs : Fs}
    (hf : (execAux bad [op] fs).2.2 = false) (rest : List RenameOp) :
    execAux bad (op :: rest) fs = ((execAux bad [op] fs).1, 0, false) := by
  cases hm1 : moveO bad fs op.src (tmpPath op.src) with
  | none => simp only [execAux_cons, hm1]
  | some fs1 =>
    cases hm2 : moveO bad fs1 (tmpPath op.src) op.tgt with
    | none => simp only [execAux_cons, hm1, hm2]
    | some fs2 =>
      simp only [execAux_cons, hm1, hm2, execAux] at hf
      exact absurd hf (by simp)

/-- Claim C6: when operation k is the first to fail (all of `pre`, the
k−1 earlier operations, completed and the k-th fails), execution stops
immediately with completed count k−1 and failure reported, every
operation after k whose source is disjoint from the paths the run
touched is still at its original binding, and a failed run writes no
undo record (`_rename_finished` leaves the state untouched). -/
theorem claim6_failfast (bad : FsPath → FsPath → Bool) (pre : List RenameOp)
    (opk : RenameOp) (post : List RenameOp) (fs fs1 : Fs)
    (hpre : execAux bad pre fs = (fs1, pre.length, true))
    (hk : (execAux bad [opk] fs1).2.2 = false) :
    execAux bad (pre ++ opk :: post) fs = ((execAux bad [opk] fs1).1, pre.length, false) ∧
    (∀ op ∈ post,
      (∀ q ∈ pre ++ [opk], op.src ≠ q.src ∧ op.src ≠ tmpPath q.src ∧ op.src ≠ q.tgt) →
      fsFind (execAux bad (pre ++ opk :: post) fs).1 op.src = fsFind fs op.src) ∧
    (∀ (st : AppState) (ops : List RenameOp), renameFinished st false ops = st) := by
  have hmain : execAux bad (pre ++ opk :: post) fs =
      ((execAux bad [opk] fs1).1, pre.length, false) := by
    rw [execAux_append, hpre]
    simp only [if_true]
    rw [execAux_cons_fail hk post]
    simp
  refine ⟨hmain, ?_, fun st ops => rfl⟩
  intro op hop hdisj
  rw [hmain]
  have hq := fun q hq => hdisj q (List.mem_append_left _ hq)
  have hqk := hdisj opk (List.mem_append_right _ (List.mem_cons_self _ _))
  have h1 : fsFind (execAux bad [opk] fs1).1 op.src = fsFind fs1 op.src :=
    execAux_frame bad [opk] fs1 op.src
      (fun q hqm => by
        rcases List.mem_singleton.mp hqm with rfl
        exact hqk)
  have h2 : fsFind (execAux bad pre fs).1 op.src = fsFind fs op.src :=
    execAux_frame bad pre fs op.src hq
  rw [hpre] at h2
  exact h1.trans h2

/-- Witness for C6: in a three-file directory, the first operation
commits, the second fails (the oracle rejects its staging move), the
run reports one completed operation with failure, and the third file
is untouched. -/
theorem claim6_failfast_witness :
    (execAux (fun s _ => s == (⟨0, ['b']⟩ : FsPath))
      [⟨⟨0, ['a']⟩, ⟨0, ['x']⟩⟩, ⟨⟨0, ['b']⟩, ⟨0, ['y']⟩⟩, ⟨⟨0, ['c']⟩, ⟨0, ['z']⟩⟩]
      [(⟨0, ['a']⟩, 1), (⟨0, ['b']⟩, 2), (⟨0, ['c']⟩, 3)]).2 = (1, false) ∧
    fsFind (execAux (fun s _ => s == (⟨0, ['b']⟩ : FsPath))
      [⟨⟨0, ['a']⟩, ⟨0, ['x']⟩⟩, ⟨⟨0, ['b']⟩, ⟨0, ['y']⟩⟩, ⟨⟨0, ['c']⟩, ⟨0, ['z']⟩⟩]
      [(⟨0, ['a']⟩, 1), (⟨0, ['b']⟩, 2), (⟨0, ['c']⟩, 3)]).1 ⟨0, ['c']⟩ = some 3 := by
  have h := claim6_failfast (fun s _ => s == (⟨0, ['b']⟩ : FsPath))
    [⟨⟨0, ['a']⟩, ⟨0, ['x']⟩⟩] ⟨⟨0, ['b']⟩, ⟨0, ['y']⟩⟩ [⟨⟨0, ['c']⟩, ⟨0, ['z']⟩⟩]
    [(⟨0, ['a']⟩, 1), (⟨0, ['b']⟩, 2), (⟨0, ['c']⟩, 3)]
    [(⟨0, ['x']⟩, 1), (⟨0, ['b']⟩, 2), (⟨0, ['c']⟩, 3)]
    (by decide) (by decide)
  constructor
  · rw [show ([⟨⟨0, ['a']⟩, ⟨0, ['x']⟩⟩] ++ ⟨⟨0, ['b']⟩, ⟨0, ['y']⟩⟩ ::
      [⟨⟨0, ['c']⟩, ⟨0, ['z']⟩⟩] : List RenameOp) =
      [⟨⟨0, ['a']⟩, ⟨0, ['x']⟩⟩, ⟨⟨0, ['b']⟩, ⟨0, ['y']⟩⟩, ⟨⟨0, ['c']⟩, ⟨0, ['z']⟩⟩] from rfl]
      at h
    rw [h.1]
    rfl
  · have h2 := h.2.1 ⟨⟨0, ['c']⟩, ⟨0, ['z']⟩⟩ (List.mem_cons_self _ _) (by decide)
    exact h2.trans (by decide)

theorem tmpPath_ne (p : FsPath) : tmpPath p ≠ p := by
  intro h
  have h2 : ('.' :: (p.name ++ swapChars)).length = p.name.length :=
    congrArg (fun q => (FsPath.name q).length) h
  simp [swapChars] at h2
  omega

/-- Claim C10: every executed operation is staged through the
same-directory hidden temporary name `"." + originalName +
".swap_tmp"`; when the commit move (temporary name to final target)
is the one that fails, execution stops with completed count unchanged,
the entry is left at the temporary name — bound at neither its source
nor its (previously unoccupied) target — and no later operation is
attempted, whatever the rest of the plan holds. -/
theorem claim10_staging (bad : FsPath → FsPath → Bool) (pre : List RenameOp)
    (opk : RenameOp) (fs fs1 : Fs) (v : Nat)
    (hpre : execAux bad pre fs = (fs1, pre.length, true))
    (hsrc : fsFind fs1 opk.src = some v)
    (hstage : bad opk.src (tmpPath opk.src) = false)
    (hcommit : bad (tmpPath opk.src) opk.tgt = true)
    (htgtfree : fsFind fs1 opk.tgt = none)
    (htgttmp : opk.tgt ≠ tmpPath opk.src) :
    (tmpPath opk.src).dir = opk.src.dir ∧
    (tmpPath opk.src).name = '.' :: (opk.src.name ++ swapChars) ∧
    (∀ post, execAux bad (pre ++ opk :: post) fs =
      ((tmpPath opk.src, v) :: eraseKey opk.src fs1, pre.length, false)) ∧
    fsFind ((tmpPath opk.src, v) :: eraseKey opk.src fs1) (tmpPath opk.src) = some v ∧
    fsFind ((tmpPath opk.src, v) :: eraseKey opk.src fs1) opk.src = none ∧
    fsFind ((tmpPath opk.src, v) :: eraseKey opk.src fs1) opk.tgt = none := by
  have hm1 : moveO bad fs1 opk.src (tmpPath opk.src) =
      some ((tmpPath opk.src, v) :: eraseKey opk.src fs1) := by
    unfold moveO fsMove
    rw [if_neg (by rw [hstage]; simp), hsrc]
  have hm2 : moveO bad ((tmpPath opk.src, v) :: eraseKey opk.src fs1)
      (tmpPath opk.src) opk.tgt = none := by
    unfold moveO
    rw [if_pos hcommit]
  have hsrctgt : opk.src ≠ opk.tgt := by
    intro heq
    rw [heq, htgtfree] at hsrc
    exact absurd hsrc (by simp)
  refine ⟨rfl, rfl, fun post => ?_, ?_, ?_, ?_⟩
  · rw [execAux_append, hpre]
    simp only [if_true]
    simp only [execAux_cons, hm1, hm2]
    simp
  · rw [fsFind_cons, if_pos rfl]
  · rw [fsFind_cons, if_neg (tmpPath_ne opk.src), fsFind_eraseKey, if_pos rfl]
  · rw [fsFind_cons, if_neg (fun heq => htgttmp heq.symm), fsFind_eraseKey,
      if_neg (fun heq => hsrctgt heq.symm), htgtfree]

/-- Witness for C10: the single operation `b → y` fails at its commit
move and the entry is stranded at `.b.swap_tmp`. -/
theorem claim10_staging_witness :
    execAux (fun s _ => s == tmpPath (⟨0, ['b']⟩ : FsPath))
      [⟨⟨0, ['b']⟩, ⟨0, ['y']⟩⟩] [(⟨0, ['b']⟩, 2)] =
      ((tmpPath ⟨0, ['b']⟩, 2) :: eraseKey ⟨0, ['b']⟩ [(⟨0, ['b']⟩, 2)], 0, false) ∧
    fsFind ((tmpPath (⟨0, ['b']⟩ : FsPath), 2) ::
      eraseKey ⟨0, ['b']⟩ [(⟨0, ['b']⟩, 2)]) (tmpPath ⟨0, ['b']⟩) = some 2 ∧
    fsFind ((tmpPath (⟨0, ['b']⟩ : FsPath), 2) ::
      eraseKey ⟨0, ['b']⟩ [(⟨0, ['b']⟩, 2)]) ⟨0, ['b']⟩ = none ∧
    fsFind ((tmpPath (⟨0, ['b']⟩ : FsPath), 2) ::
      eraseKey ⟨0, ['b']⟩ [(⟨0, ['b']⟩, 2)]) ⟨0, ['y']⟩ = none := by
  have h := claim10_staging (fun s _ => s == tmpPath (⟨0, ['b']⟩ : FsPath))
    [] ⟨⟨0, ['b']⟩, ⟨0, ['y']⟩⟩ [(⟨0, ['b']⟩, 2)] [(⟨0, ['b']⟩, 2)] 2
    rfl (by decide) (by decide) (by decide) (by decide) (by decide)
  exact ⟨h.2.2.1 [], h.2.2.2.1, h.2.2.2.2.1, h.2.2.2.2.2⟩

/-- Claim C3 fails on the code: `_load_persisted_undo` rebuilds each
pair as `RenameOp(Path(tgt), Path(src))`, swapping the fields, so the
persisted-and-reloaded record is not equivalent to the in-memory one.
For the single executed operation `a → b`, replaying the in-memory
record moves `b` back to `a`, while replaying the reloaded record
attempts to move `a` (which no longer exists) and fails, leaving the
filesystem unchanged and collecting an error. -/
theorem claim3_persistence_bug :
    deserializeOps (serializeOps [⟨⟨0, ['a']⟩, ⟨0, ['b']⟩⟩]) ≠
      [⟨⟨0, ['a']⟩, ⟨0, ['b']⟩⟩] ∧
    deserializeOps (serializeOps [⟨⟨0, ['a']⟩, ⟨0, ['b']⟩⟩]) =
      [⟨⟨0, ['b']⟩, ⟨0, ['a']⟩⟩] ∧
    undoGo noFail ([⟨⟨0, ['a']⟩, ⟨0, ['b']⟩⟩] : List RenameOp).reverse
      [(⟨0, ['b']⟩, 10)] = ([(⟨0, ['a']⟩, 10)], []) ∧
    undoGo noFail (deserializeOps (serializeOps [⟨⟨0, ['a']⟩, ⟨0, ['b']⟩⟩])).reverse
      [(⟨0, ['b']⟩, 10)] = ([(⟨0, ['b']⟩, 10)], [⟨⟨0, ['b']⟩, ⟨0, ['a']⟩⟩]) := by
  refine ⟨by decide, by decide, by decide, by decide⟩

/-- Counterexample for C9: after a successful execution of `a → b`
(state: entry at `b`, in-memory record `[(a, b)]`, persisted batch
file present), a first undo replays and clears the in-memory record —
but the persisted file is not removed, so a second undo invocation
does find a record to replay: it loads the (field-swapped) persisted
pairs and moves the entry from `a` back to `b`, changing the
filesystem again, contradicting the claim that it finds nothing. -/
theorem claim9_counterexample :
    (undoLast noFail ⟨[(⟨0, ['b']⟩, 10)], [⟨⟨0, ['a']⟩, ⟨0, ['b']⟩⟩],
        some [(⟨0, ['a']⟩, ⟨0, ['b']⟩)]⟩).1 =
      ⟨[(⟨0, ['a']⟩, 10)], [], some [(⟨0, ['a']⟩, ⟨0, ['b']⟩)]⟩ ∧
    (undoLast noFail ⟨[(⟨0, ['a']⟩, 10)], [],
        some [(⟨0, ['a']⟩, ⟨0, ['b']⟩)]⟩).1 =
      ⟨[(⟨0, ['b']⟩, 10)], [], none⟩ ∧
    ([(⟨0, ['b']⟩, 10)] : Fs) ≠ [(⟨0, ['a']⟩, 10)] := by
  refine ⟨by decide, by decide, by decide⟩

/-- Claim C9 (amended): after an undo run over a non-empty in-memory
record, the in-memory record is cleared unconditionally — even when
some or all per-item moves failed, whose errors are merely collected —
so failed items cannot be retried through the in-memory record; the
persisted batch file, however, is left in place by such a run, and a
subsequent undo invocation falls back to loading it. -/
theorem claim9_amended (bad : FsPath → FsPath → Bool) (st : AppState)
    (h : st.undo ≠ []) :
    (undoLast bad st).1.undo = [] ∧
    (undoLast bad st).1.persisted = st.persisted ∧
    (undoLast bad st).2 = (undoGo bad st.undo.reverse st.fs).2 := by
  unfold undoLast
  rw [if_neg (fun hc => h (List.isEmpty_iff.mp hc))]
  exact ⟨rfl, rfl, rfl⟩

/-- Witness for the amended C9: with an oracle failing every move, the
whole batch errors out, yet the in-memory record is cleared and the
persisted file survives. -/
theorem claim9_amended_witness :
    (undoLast (fun _ _ => true) ⟨[(⟨0, ['b']⟩, 10)],
        [⟨⟨0, ['a']⟩, ⟨0, ['b']⟩⟩], some [(⟨0, ['a']⟩, ⟨0, ['b']⟩)]⟩).1.undo = [] ∧
    (undoLast (fun _ _ => true) ⟨[(⟨0, ['b']⟩, 10)],
        [⟨⟨0, ['a']⟩, ⟨0, ['b']⟩⟩], some [(⟨0, ['a']⟩, ⟨0, ['b']⟩)]⟩).1.persisted =
      some [(⟨0, ['a']⟩, ⟨0, ['b']⟩)] := by
  have h := claim9_amended (fun _ _ => true)
    ⟨[(⟨0, ['b']⟩, 10)], [⟨⟨0, ['a']⟩, ⟨0, ['b']⟩⟩], some [(⟨0, ['a']⟩, ⟨0, ['b']⟩)]⟩
    (by decide)
  exact ⟨h.1, h.2.1⟩

/-! ### Claim C8: replacement semantics of sanitise -/

/-- Counterexample for C8: for a replacement longer than one character
the claim predicts deletion of bad characters, but `sanitise`
substitutes the whole replacement string (Python truthiness: any
non-empty string takes the replace branch).  On `":x"` with bad set
`{":"}`, replacement `"ab"` yields `"abx"`, not the deletion result
`"x"`. -/
theorem claim8_counterexample :
    sanitise [':', 'x'] [':'] (some ['a', 'b']) = ['a', 'b', 'x'] ∧
    sanitise [':', 'x'] [':'] none = ['x'] ∧
    sanitise [':', 'x'] [':'] (some ['a', 'b']) ≠ sanitise [':', 'x'] [':'] none := by
  refine ⟨by decide, by decide, by decide⟩

/-- Claim C8 (amended): if the replacement is any non-empty string —
single-character in validated GUI use — every bad character is
replaced by the entire replacement string (equivalently, sanitising
equals running the pipeline on the pre-substituted name); if the
replacement is empty or absent, bad characters are deleted. -/
theorem claim8_amended (n bad : List Char) (r : List Char) (hr : r ≠ []) :
    sanitise n bad (some r) =
      sanitise (n.flatMap (fun c => if c ∈ bad then r else [c])) [] none ∧
    sanitise n bad none = sanitise (n.filter (fun c => c ∉ bad)) [] none ∧
    sanitise n bad (some []) = sanitise n bad none := by
  have hid : ∀ m : List Char, replPhase [] none m = m := by
    intro m
    unfold replPhase
    simp
  refine ⟨?_, ?_, ?_⟩
  · unfold sanitise
    rw [hid]
    simp only [replPhase]
    rw [if_neg hr]
  · unfold sanitise
    rw [hid]
    rfl
  · unfold sanitise
    rfl

/-- Witness for the amended C8: the counterexample input follows the
substitution reading. -/
theorem claim8_amended_witness :
    sanitise [':', 'x'] [':'] (some ['a', 'b']) =
      sanitise ([':', 'x'].flatMap (fun c => if c ∈ [':'] then ['a', 'b'] else [c]))
        [] none :=
  (claim8_amended [':', 'x'] [':'] ['a', 'b'] (by decide)).1

/-! ### Claim C7: idempotence analysis of sanitise -/

theorem subRuns_nil (p : Char → Bool) (r : Char) : subRuns p r [] = [] := rfl

theorem subRuns_one (p : Char → Bool) (r c : Char) :
    subRuns p r [c] = if p c then [r] else [c] := rfl

theorem subRuns_two (p : Char → Bool) (r c d : Char) (cs : List Char) :
    subRuns p r (c :: d :: cs) =
      if p c then
        (if p d then subRuns p r (d :: cs) else r :: subRuns p r (d :: cs))
      else c :: subRuns p r (d :: cs) := rfl

theorem subRuns_mem (p : Char → Bool) (r : Char) :
    ∀ (l : List Char), ∀ c ∈ subRuns p r l, c = r ∨ (c ∈ l ∧ p c = false) := by
  intro l
  induction l with
  | nil => intro c hc; rw [subRuns_nil] at hc; exact absurd hc (List.not_mem_nil _)
  | cons a t ih =>
    cases t with
    | nil =>
      intro c hc
      rw [subRuns_one] at hc
      by_cases hp : p a
      · rw [if_pos hp] at hc
        exact Or.inl (List.mem_singleton.mp hc)
      · rw [if_neg hp] at hc
        rcases List.mem_singleton.mp hc with rfl
        exact Or.inr ⟨List.mem_singleton.mpr rfl, Bool.eq_false_iff.mpr hp⟩
    | cons d ds =>
      intro c hc
      rw [subRuns_two] at hc
      by_cases hpa : p a
      · rw [if_pos hpa] at hc
        by_cases hpd : p d
        · rw [if_pos hpd] at hc
          rcases ih c hc with h | ⟨hm, hq⟩
          · exact Or.inl h
          · exact Or.inr ⟨List.mem_cons_of_mem _ hm, hq⟩
        · rw [if_neg hpd] at hc
          rcases List.mem_cons.mp hc with rfl | hc'
          · exact Or.inl rfl
          · rcases ih c hc' with h | ⟨hm, hq⟩
            · exact Or.inl h
            · exact Or.inr ⟨List.mem_cons_of_mem _ hm, hq⟩
      · rw [if_neg hpa] at hc
        rcases List.mem_cons.mp hc with rfl | hc'
        · exact Or.inr ⟨List.mem_cons_self _ _, Bool.eq_false_iff.mpr hpa⟩
        · rcases ih c hc' with h | ⟨hm, hq⟩
          · exact Or.inl h
          · exact Or.inr ⟨List.mem_cons_of_mem _ hm, hq⟩

theorem subRuns_ne_nil (p : Char → Bool) (r : Char) :
    ∀ (l : List Char), l ≠ [] → subRuns p r l ≠ [] := by
  intro l
  induction l with
  | nil => intro h; exact absurd rfl h
  | cons a t ih =>
    intro _
    cases t with
    | nil =>
      rw [subRuns_one]
      by_cases hp : p a
      · rw [if_pos hp]; simp
      · rw [if_neg hp]; simp
    | cons d ds =>
      rw [subRuns_two]
      by_cases hpa : p a
      · rw [if_pos hpa]
        by_cases hpd : p d
        · rw [if_pos hpd]; exact ih (by simp)
        · rw [if_neg hpd]; simp
      · rw [if_neg hpa]; simp

theorem subRuns_head? (p : Char → Bool) (r : Char) :
    ∀ (l : List Char) (c : Char), (subRuns p r l).head? = some c →
      c = r ∨ (l.head? = some c ∧ p c = false) := by
  intro l
  induction l with
  | nil => intro c hc; rw [subRuns_nil] at hc; exact absurd hc (by simp)
  | cons a t ih =>
    cases t with
    | nil =>
      intro c hc
      rw [subRuns_one] at hc
      by_cases hp : p a
      · rw [if_pos hp] at hc
        injection hc with hc
        exact Or.inl hc.symm
      · rw [if_neg hp] at hc
        injection hc with hc
        subst hc
        exact Or.inr ⟨rfl, Bool.eq_false_iff.mpr hp⟩
    | cons d ds =>
      intro c hc
      rw [subRuns_two] at hc
      by_cases hpa : p a
      · rw [if_pos hpa] at hc
        by_cases hpd : p d
        · rw [if_pos hpd] at hc
          rcases ih c hc with h | ⟨h1, h2⟩
          · exact Or.inl h
          · rw [List.head?_cons] at h1
            injection h1 with h1
            subst h1
            exact absurd hpd (by simp [h2])
        · rw [if_neg hpd] at hc
          injection hc with hc
          exact Or.inl hc.symm
      · rw [if_neg hpa] at hc
        injection hc with hc
        subst hc
        exact Or.inr ⟨rfl, Bool.eq_false_iff.mpr hpa⟩

theorem subRuns_head?_keep (p : Char → Bool) (r : Char) :
    ∀ (l : List Char) (c : Char), l.head? = some c → p c = false →
      (subRuns p r l).head? = some c := by
  intro l
  cases l with
  | nil => intro c hc _; exact absurd hc (by simp)
  | cons a t =>
    intro c hc hp
    rw [List.head?_cons] at hc
    injection hc with hc
    subst hc
    cases t with
    | nil =>
      rw [subRuns_one, if_neg (by simp [hp])]
      rfl
    | cons d ds =>
      rw [subRuns_two, if_neg (by simp [hp])]
      rfl

theorem getLast?_cons_ne_nil {t : List Char} (a : Char) (h : t ≠ []) :
    (a :: t).getLast? = t.getLast? := by
  cases t with
  | nil => exact absurd rfl h
  | cons b bs => exact List.getLast?_cons_cons

theorem subRuns_getLast? (p : Char → Bool) (r : Char) :
    ∀ (l : List Char) (c : Char), (subRuns p r l).getLast? = some c →
      c = r ∨ (l.getLast? = some c ∧ p c = false) := by
  intro l
  induction l with
  | nil => intro c hc; rw [subRuns_nil] at hc; exact absurd hc (by simp)
  | cons a t ih =>
    cases t with
    | nil =>
      intro c hc
      rw [subRuns_one] at hc
      by_cases hp : p a
      · rw [if_pos hp] at hc
        injection hc with hc
        exact Or.inl hc.symm
      · rw [if_neg hp] at hc
        injection hc with hc
        subst hc
        exact Or.inr ⟨rfl, Bool.eq_false_iff.mpr hp⟩
    | cons d ds =>
      intro c hc
      have hne : subRuns p r (d :: ds) ≠ [] := subRuns_ne_nil p r _ (by simp)
      have hlast : ((a :: d :: ds) : List Char).getLast? = (d :: ds).getLast? :=
        List.getLast?_cons_cons
      rw [subRuns_two] at hc
      by_cases hpa : p a
      · rw [if_pos hpa] at hc
        by_cases hpd : p d
        · rw [if_pos hpd] at hc
          rcases ih c hc with h | ⟨h1, h2⟩
          · exact Or.inl h
          · exact Or.inr ⟨hlast ▸ h1, h2⟩
        · rw [if_neg hpd, getLast?_cons_ne_nil r hne] at hc
          rcases ih c hc with h | ⟨h1, h2⟩
          · exact Or.inl h
          · exact Or.inr ⟨hlast ▸ h1, h2⟩
      · rw [if_neg hpa, getLast?_cons_ne_nil a hne] at hc
        rcases ih c hc with h | ⟨h1, h2⟩
        · exact Or.inl h
        · exact Or.inr ⟨hlast ▸ h1, h2⟩

theorem subRuns_eq_self (p : Char → Bool) (r : Char) :
    ∀ (l : List Char), (∀ c ∈ l, p c = false) → subRuns p r l = l := by
  intro l
  induction l with
  | nil => intro _; rfl
  | cons a t ih =>
    intro h
    cases t with
    | nil =>
      rw [subRuns_one, if_neg (by simp [h a (List.mem_cons_self _ _)])]
    | cons d ds =>
      rw [subRuns_two, if_neg (by simp [h a (List.mem_cons_self _ _)])]
      rw [ih (fun c hc => h c (List.mem_cons_of_mem _ hc))]

/-- Adjacent characters of the underscore-collapse relation. -/
def Qund (a b : Char) : Prop := ¬(a = '_' ∧ b = '_')

theorem subRuns_chain' (p : Char → Bool) (r : Char) :
    ∀ (l : List Char),
    List.Chain' (fun a b => ¬(p a = true ∧ p b = true)) (subRuns p r l) := by
  intro l
  induction l with
  | nil => exact List.chain'_nil
  | cons a t ih =>
    cases t with
    | nil =>
      rw [subRuns_one]
      by_cases hp : p a
      · rw [if_pos hp]; exact List.chain'_singleton _
      · rw [if_neg hp]; exact List.chain'_singleton _
    | cons d ds =>
      rw [subRuns_two]
      by_cases hpa : p a
      · rw [if_pos hpa]
        by_cases hpd : p d
        · rw [if_pos hpd]; exact ih
        · rw [if_neg hpd]
          refine List.chain'_cons'.mpr ⟨?_, ih⟩
          intro y hy
          have := subRuns_head?_keep p r (d :: ds) d rfl (Bool.eq_false_iff.mpr hpd)
          rw [this] at hy
          injection hy with hy
          subst hy
          intro hcon
          exact hpd hcon.2
      · rw [if_neg hpa]
        refine List.chain'_cons'.mpr ⟨?_, ih⟩
        intro y _ hcon
        exact hpa hcon.1

theorem subRuns_und_eq_self :
    ∀ (l : List Char), List.Chain' Qund l → subRuns undCh '_' l = l := by
  intro l
  induction l with
  | nil => intro _; rfl
  | cons a t ih =>
    intro h
    cases t with
    | nil =>
      rw [subRuns_one]
      by_cases hp : undCh a = true
      · rw [if_pos hp]
        have : a = '_' := by simpa [undCh] using hp
        rw [this]
      · rw [if_neg hp]
    | cons d ds =>
      have hpair : Qund a d := (List.chain'_cons.mp h).1
      have htail := (List.chain'_cons.mp h).2
      rw [subRuns_two]
      by_cases hpa : undCh a = true
      · have ha : a = '_' := by simpa [undCh] using hpa
        rw [if_pos hpa]
        by_cases hpd : undCh d = true
        · have hd : d = '_' := by simpa [undCh] using hpd
          exact absurd ⟨ha, hd⟩ hpair
        · rw [if_neg hpd, ih htail, ha]
      · rw [if_neg hpa, ih htail]

theorem head?_dropWhile (p : Char → Bool) :
    ∀ (l : List Char) (c : Char), (l.dropWhile p).head? = some c → p c = false := by
  intro l
  induction l with
  | nil => intro c hc; exact absurd hc (by simp)
  | cons a t ih =>
    intro c hc
    rw [List.dropWhile_cons] at hc
    by_cases hp : p a = true
    · rw [if_pos hp] at hc
      exact ih c hc
    · rw [if_neg hp] at hc
      injection hc with hc
      subst hc
      exact Bool.eq_false_iff.mpr hp

theorem dropWhile_eq_self (p : Char → Bool) :
    ∀ (l : List Char), (∀ c, l.head? = some c → p c = false) → l.dropWhile p = l := by
  intro l h
  cases l with
  | nil => rfl
  | cons a t =>
    rw [List.dropWhile_cons, if_neg (by simp [h a rfl])]

theorem getLast?_dropWhile (p : Char → Bool) :
    ∀ (l : List Char), l.dropWhile p ≠ [] → (l.dropWhile p).getLast? = l.getLast? := by
  intro l
  induction l with
  | nil => intro h; exact absurd rfl h
  | cons a t ih =>
    intro h
    rw [List.dropWhile_cons] at h ⊢
    by_cases hp : p a = true
    · rw [if_pos hp] at h ⊢
      have ht : t ≠ [] := by
        intro he
        rw [he] at h
        exact h rfl
      rw [ih h, getLast?_cons_ne_nil a ht]
    · rw [if_neg hp] at h ⊢

theorem pyStrip_mem : ∀ (l : List Char), ∀ c ∈ pyStrip l, c ∈ l := by
  intro l c hc
  unfold pyStrip at hc
  rw [List.mem_reverse] at hc
  have h1 := (List.dropWhile_sublist (p := pyWs)
    (l := (l.dropWhile pyWs).reverse)).mem hc
  rw [List.mem_reverse] at h1
  exact (List.dropWhile_sublist (p := pyWs) (l := l)).mem h1

theorem pyStrip_head? (l : List Char) (c : Char)
    (hc : (pyStrip l).head? = some c) : pyWs c = false := by
  unfold pyStrip at hc
  rw [List.head?_reverse] at hc
  have hne : (l.dropWhile pyWs).reverse.dropWhile pyWs ≠ [] := by
    intro he
    rw [he] at hc
    exact absurd hc (by simp)
  rw [getLast?_dropWhile pyWs _ hne, List.getLast?_reverse] at hc
  exact head?_dropWhile pyWs l c hc

theorem pyStrip_getLast? (l : List Char) (c : Char)
    (hc : (pyStrip l).getLast? = some c) : pyWs c = false := by
  unfold pyStrip at hc
  rw [List.getLast?_reverse] at hc
  exact head?_dropWhile pyWs _ c hc

theorem pyStrip_eq_self (l : List Char)
    (hh : ∀ c, l.head? = some c → pyWs c = false)
    (hl : ∀ c, l.getLast? = some c → pyWs c = false) : pyStrip l = l := by
  unfold pyStrip
  rw [dropWhile_eq_self pyWs l hh]
  rw [dropWhile_eq_self pyWs l.reverse (fun c hc => by
    rw [List.head?_reverse] at hc
    exact hl c hc)]
  exact List.reverse_reverse l

theorem splitFirstDot_no_dot : ∀ (l : List Char), '.' ∉ l → splitFirstDot l = (l, none) := by
  intro l
  induction l with
  | nil => intro _; rfl
  | cons a t ih =>
    intro h
    have ha : ¬(a = '.') := fun he => h (he ▸ List.mem_cons_self _ _)
    unfold splitFirstDot
    rw [if_neg ha, ih (fun hm => h (List.mem_cons_of_mem _ hm))]

theorem splitFirstDot_append : ∀ (b r : List Char), '.' ∉ b →
    splitFirstDot (b ++ '.' :: r) = (b, some r) := by
  intro b
  induction b with
  | nil =>
    intro r _
    rw [List.nil_append]
    unfold splitFirstDot
    rw [if_pos rfl]
  | cons a t ih =>
    intro r h
    have ha : ¬(a = '.') := fun he => h (he ▸ List.mem_cons_self _ _)
    rw [List.cons_append]
    unfold splitFirstDot
    rw [if_neg ha, ih r (fun hm => h (List.mem_cons_of_mem _ hm))]

theorem splitFirstDot_none_eq : ∀ (l b : List Char),
    splitFirstDot l = (b, none) → l = b ∧ '.' ∉ b := by
  intro l
  induction l with
  | nil =>
    intro b h
    injection h with h1 _
    subst h1
    exact ⟨rfl, List.not_mem_nil _⟩
  | cons a t ih =>
    intro b h
    unfold splitFirstDot at h
    by_cases ha : a = '.'
    · rw [if_pos ha] at h
      injection h with _ h2
      exact absurd h2 (by simp)
    · rw [if_neg ha] at h
      injection h with h1 h2
      obtain ⟨h3, h4⟩ := ih (splitFirstDot t).1 (by rw [← h2])
      subst h1
      constructor
      · rw [← h3]
      · intro hm
        rcases List.mem_cons.mp hm with he | hm'
        · exact ha he.symm
        · exact h4 hm'

theorem splitFirstDot_some_eq : ∀ (l b r : List Char),
    splitFirstDot l = (b, some r) → l = b ++ '.' :: r ∧ '.' ∉ b := by
  intro l
  induction l with
  | nil =>
    intro b r h
    injection h with _ h2
    exact absurd h2 (by simp)
  | cons a t ih =>
    intro b r h
    unfold splitFirstDot at h
    by_cases ha : a = '.'
    · rw [if_pos ha] at h
      injection h with h1 h2
      injection h2 with h2
      subst h1
      subst h2
      subst ha
      exact ⟨rfl, List.not_mem_nil _⟩
    · rw [if_neg ha] at h
      injection h with h1 h2
      obtain ⟨h3, h4⟩ := ih (splitFirstDot t).1 r (by rw [← h2])
      subst h1
      constructor
      · rw [List.cons_append, ← h3]
      · intro hm
        rcases List.mem_cons.mp hm with he | hm'
        · exact ha he.symm
        · exact h4 hm'

theorem rstripSpaceDot_eq_self (l : List Char)
    (h : ∀ c, l.getLast? = some c → ¬(c = ' ' ∨ c = '.')) :
    rstripSpaceDot l = l := by
  unfold rstripSpaceDot
  rw [dropWhile_eq_self _ l.reverse (fun c hc => by
    rw [List.head?_reverse] at hc
    exact decide_eq_false (h c hc))]
  exact List.reverse_reverse l

theorem win_reserved_last : ∀ w ∈ WIN_RESERVED, w.getLast? ≠ some '_' := by decide

theorem lowerCh_und : lowerCh '_' = '_' := by decide

theorem append_und_not_reserved (l : List Char) :
    (l ++ ['_']).map lowerCh ∉ WIN_RESERVED := by
  intro h
  apply win_reserved_last _ h
  rw [List.map_append]
  simp [lowerCh_und]

theorem reserved_last_ne_und {l : List Char} (h : l.map lowerCh ∈ WIN_RESERVED) :
    ∀ c, l.getLast? = some c → c ≠ '_' := by
  intro c hc he
  subst he
  apply win_reserved_last _ h
  rw [List.getLast?_map, hc, Option.map_some', lowerCh_und]

theorem reserved_ne_nil {l : List Char} (h : l.map lowerCh ∈ WIN_RESERVED) : l ≠ [] := by
  intro he
  subst he
  exact absurd h (by decide)

theorem replPhase_nil (bad : List Char) (repl : Option (List Char)) :
    replPhase bad repl [] = [] := by
  cases repl with
  | none => rfl
  | some r =>
    by_cases hr : r = []
    · simp [replPhase, hr]
    · simp [replPhase, hr]

theorem replPhase_cons (bad : List Char) (repl : Option (List Char)) (c : Char)
    (m : List Char) :
    replPhase bad repl (c :: m) = replPhase bad repl [c] ++ replPhase bad repl m := by
  cases repl with
  | none =>
    by_cases hc : c ∈ bad <;> simp [replPhase, List.filter_cons, hc]
  | some r =>
    by_cases hr : r = []
    · subst hr
      by_cases hc : c ∈ bad <;> simp [replPhase, List.filter_cons, hc]
    · simp [replPhase, hr, List.flatMap_cons]

theorem replPhase_eq_self (bad : List Char) (repl : Option (List Char)) :
    ∀ (m : List Char), (∀ c ∈ m, replPhase bad repl [c] = [c]) →
    replPhase bad repl m = m := by
  intro m
  induction m with
  | nil => intro _; exact replPhase_nil bad repl
  | cons c t ih =>
    intro h
    rw [replPhase_cons, h c (List.mem_cons_self _ _),
      ih (fun d hd => h d (List.mem_cons_of_mem _ hd))]
    rfl

theorem charFix_notbad {bad : List Char} {repl : Option (List Char)} {c : Char}
    (hc : c ∉ bad) : replPhase bad repl [c] = [c] := by
  cases repl with
  | none => simp [replPhase, hc]
  | some r =>
    by_cases hr : r = []
    · simp [replPhase, hr, hc]
    · simp [replPhase, hr, hc]

/-- Every character of a replace-phase output is itself a fixed point
of the replace phase, provided the replacement is absent, empty, or a
single character. -/
theorem charFix_of_mem {bad : List Char} {repl : Option (List Char)}
    (hrepl : repl = none ∨ repl = some [] ∨ ∃ c0, repl = some [c0])
    {n : List Char} {c : Char} (hc : c ∈ replPhase bad repl n) :
    replPhase bad repl [c] = [c] := by
  rcases hrepl with rfl | rfl | ⟨c0, rfl⟩
  · rw [show replPhase bad none n = n.filter (fun c => c ∉ bad) from rfl,
      List.mem_filter] at hc
    exact charFix_notbad (of_decide_eq_true hc.2)
  · have h0 : replPhase bad (some []) n = n.filter (fun c => c ∉ bad) := by
      simp [replPhase]
    rw [h0, List.mem_filter] at hc
    exact charFix_notbad (of_decide_eq_true hc.2)
  · have hr : ¬([c0] = ([] : List Char)) := by simp
    simp only [replPhase, if_neg hr] at hc
    rw [List.mem_flatMap] at hc
    obtain ⟨d, _, hd2⟩ := hc
    by_cases hdb : d ∈ bad
    · rw [if_pos hdb] at hd2
      rcases List.mem_singleton.mp hd2 with rfl
      by_cases hcb : c ∈ bad <;> simp [replPhase, hr, hcb]
    · rw [if_neg hdb] at hd2
      rcases List.mem_singleton.mp hd2 with rfl
      exact charFix_notbad hdb

theorem head?_append_left {b : List Char} (x : List Char) (h : b ≠ []) :
    (b ++ x).head? = b.head? := by
  cases b with
  | nil => exact absurd rfl h
  | cons a t => rfl

theorem getLast?_append_right (x : List Char) {b : List Char} (h : b ≠ []) :
    (x ++ b).getLast? = b.getLast? := by
  induction x with
  | nil => rfl
  | cons a t ih =>
    rw [List.cons_append, getLast?_cons_ne_nil a (by
      intro he
      exact h (List.append_eq_nil.mp he).2), ih]

theorem getLast?_concat' (x : List Char) (a : Char) :
    (x ++ [a]).getLast? = some a := by
  rw [getLast?_append_right x (by simp)]
  rfl

theorem windowsFix_eq_none {name b : List Char}
    (h : splitFirstDot name = (b, none)) :
    windowsFix name =
      rstripSpaceDot (if b.map lowerCh ∈ WIN_RESERVED then b ++ ['_'] else b) := by
  unfold windowsFix
  rw [h]

theorem windowsFix_eq_some {name b r : List Char}
    (h : splitFirstDot name = (b, some r)) :
    windowsFix name =
      rstripSpaceDot (if b.map lowerCh ∈ WIN_RESERVED then b ++ ['_'] else b) ++
        '.' :: r := by
  unfold windowsFix
  rw [h]

theorem rstrip_clean {x : List Char} (hsp : ∀ c ∈ x, spTab c = false)
    (hdot : '.' ∉ x) : rstripSpaceDot x = x := by
  apply rstripSpaceDot_eq_self
  intro c hc hor
  have hm : c ∈ x := by
    obtain ⟨hne, heq⟩ := List.mem_getLast?_eq_getLast hc
    rw [heq]
    exact List.getLast_mem hne
  rcases hor with rfl | rfl
  · have := hsp ' ' hm
    simp [spTab] at this
  · exact hdot hm

theorem rstrip_concat_und (b : List Char) :
    rstripSpaceDot (b ++ ['_']) = b ++ ['_'] := by
  apply rstripSpaceDot_eq_self
  intro c hc hor
  rw [getLast?_concat'] at hc
  injection hc with hc
  subst hc
  rcases hor with h | h <;> exact absurd h (by decide)

/-- Behaviour of `_windows_fix` on whitespace-free input: its output
characters come from the input plus `_`, it is idempotent, it
preserves first/last characters up to `.`/`_`, and it preserves the
absence of adjacent underscores. -/
theorem windowsFix_pack (m : List Char) (hsp : ∀ c ∈ m, spTab c = false) :
    (∀ c ∈ windowsFix m, c ∈ m ∨ c = '_') ∧
    windowsFix (windowsFix m) = windowsFix m ∧
    (∀ c, (windowsFix m).head? = some c → c = '.' ∨ m.head? = some c) ∧
    (∀ c, (windowsFix m).getLast? = some c → c = '_' ∨ c = '.' ∨ m.getLast? = some c) ∧
    (List.Chain' Qund m → List.Chain' Qund (windowsFix m)) := by
  rcases hsd : splitFirstDot m with ⟨b, rest⟩
  cases rest with
  | none =>
    obtain ⟨hm, hdot⟩ := splitFirstDot_none_eq m b hsd
    subst hm
    by_cases hres : m.map lowerCh ∈ WIN_RESERVED
    · have hW : windowsFix m = m ++ ['_'] := by
        rw [windowsFix_eq_none hsd, if_pos hres, rstrip_concat_und]
      have hbne : m ≠ [] := reserved_ne_nil hres
      refine ⟨?_, ?_, ?_, ?_, ?_⟩
      · intro c hc
        rw [hW] at hc
        rcases List.mem_append.mp hc with h | h
        · exact Or.inl h
        · exact Or.inr (List.mem_singleton.mp h)
      · rw [hW]
        have hdot2 : '.' ∉ m ++ ['_'] := by
          intro hc
          rcases List.mem_append.mp hc with h | h
          · exact hdot h
          · exact absurd (List.mem_singleton.mp h) (by decide)
        rw [windowsFix_eq_none (splitFirstDot_no_dot _ hdot2),
          if_neg (append_und_not_reserved m), rstrip_concat_und]
      · intro c hc
        rw [hW, head?_append_left _ hbne] at hc
        exact Or.inr hc
      · intro c hc
        rw [hW, getLast?_concat'] at hc
        injection hc with hc
        exact Or.inl hc.symm
      · intro hch
        rw [hW, List.chain'_append]
        refine ⟨hch, List.chain'_singleton _, ?_⟩
        intro x hx y hy
        rw [List.head?_cons] at hy
        simp only [Option.mem_def, Option.some.injEq] at hy
        subst hy
        intro hcon
        exact reserved_last_ne_und hres x (Option.mem_def.mp hx) hcon.1
    · have hW : windowsFix m = m := by
        rw [windowsFix_eq_none hsd, if_neg hres, rstrip_clean hsp hdot]
      refine ⟨?_, ?_, ?_, ?_, ?_⟩
      · intro c hc; rw [hW] at hc; exact Or.inl hc
      · rw [hW, hW]
      · intro c hc; rw [hW] at hc; exact Or.inr hc
      · intro c hc; rw [hW] at hc; exact Or.inr (Or.inr hc)
      · intro hch; rw [hW]; exact hch
  | some r =>
    obtain ⟨hm, hdot⟩ := splitFirstDot_some_eq m b r hsd
    have hspb : ∀ c ∈ b, spTab c = false := fun c hc =>
      hsp c (hm ▸ List.mem_append_left _ hc)
    have hdotm : '.' ∈ m := hm ▸ List.mem_append_right _ (List.mem_cons_self _ _)
    by_cases hres : b.map lowerCh ∈ WIN_RESERVED
    · have hbne : b ≠ [] := reserved_ne_nil hres
      have hW : windowsFix m = (b ++ ['_']) ++ '.' :: r := by
        rw [windowsFix_eq_some hsd, if_pos hres, rstrip_concat_und]
      have hdotb : '.' ∉ b ++ ['_'] := by
        intro hc
        rcases List.mem_append.mp hc with h | h
        · exact hdot h
        · exact absurd (List.mem_singleton.mp h) (by decide)
      refine ⟨?_, ?_, ?_, ?_, ?_⟩
      · intro c hc
        rw [hW] at hc
        rcases List.mem_append.mp hc with h | h
        · rcases List.mem_append.mp h with h2 | h2
          · exact Or.inl (hm ▸ List.mem_append_left _ h2)
          · exact Or.inr (List.mem_singleton.mp h2)
        · rcases List.mem_cons.mp h with rfl | h2
          · exact Or.inl hdotm
          · exact Or.inl (hm ▸ List.mem_append_right _ (List.mem_cons_of_mem _ h2))
      · rw [hW]
        rw [windowsFix_eq_some (splitFirstDot_append _ r hdotb),
          if_neg (append_und_not_reserved b), rstrip_concat_und]
      · intro c hc
        rw [hW, head?_append_left _ (by simp), head?_append_left _ hbne] at hc
        rw [hm, head?_append_left _ hbne]
        exact Or.inr hc
      · intro c hc
        rw [hW, getLast?_append_right _ (by simp)] at hc
        cases r with
        | nil =>
          have h1 : (('.' :: ([] : List Char))).getLast? = some '.' := rfl
          rw [h1] at hc
          injection hc with hc
          exact Or.inr (Or.inl hc.symm)
        | cons y ys =>
          rw [getLast?_cons_ne_nil '.' (by simp)] at hc
          rw [hm, getLast?_append_right _ (by simp),
            getLast?_cons_ne_nil '.' (by simp)]
          exact Or.inr (Or.inr hc)
      · intro hch
        rw [hW]
        rw [hm, List.chain'_append] at hch
        obtain ⟨hchb, hchdr, hbnd⟩ := hch
        rw [List.chain'_append]
        refine ⟨?_, hchdr, ?_⟩
        · rw [List.chain'_append]
          refine ⟨hchb, List.chain'_singleton _, ?_⟩
          intro x hx y hy
          rw [List.head?_cons] at hy
          simp only [Option.mem_def, Option.some.injEq] at hy
          subst hy
          intro hcon
          exact reserved_last_ne_und hres x (Option.mem_def.mp hx) hcon.1
        · intro x hx y hy
          rw [List.head?_cons] at hy
          simp only [Option.mem_def, Option.some.injEq] at hy
          subst hy
          intro hcon
          exact absurd hcon.2 (by decide)
    · have hWm : windowsFix m = m := by
        rw [windowsFix_eq_some hsd, if_neg hres, rstrip_clean hspb hdot, hm]
      refine ⟨?_, ?_, ?_, ?_, ?_⟩
      · intro c hc; rw [hWm] at hc; exact Or.inl hc
      · rw [hWm, hWm]
      · intro c hc; rw [hWm] at hc; exact Or.inr hc
      · intro c hc; rw [hWm] at hc; exact Or.inr (Or.inr hc)
      · intro hch; rw [hWm]; exact hch

/-- Any output of the sanitise pipeline is a fixed point of the whole
pipeline, provided `_` is not a bad character and the replacement is
absent, empty, or a single character, and every character of the
pipeline input is replace-phase stable. -/
theorem sanitisePost_fixpoint (bad : List Char) (repl : Option (List Char))
    (hbad : '_' ∉ bad)
    (t0 : List Char)
    (hfix : ∀ c ∈ t0, replPhase bad repl [c] = [c]) :
    sanitise (sanitisePost t0) bad repl = sanitisePost t0 := by
  have hfixu : replPhase bad repl ['_'] = ['_'] := charFix_notbad hbad
  set ts := pyStrip t0 with hts
  set t1 := subRuns spTab '_' ts with ht1
  set t2 := subRuns undCh '_' t1 with ht2
  have f1 : ∀ c ∈ t2, c = '_' ∨ c ∈ t0 := by
    intro c hc
    rcases subRuns_mem undCh '_' t1 c hc with h | ⟨h1, _⟩
    · exact Or.inl h
    · rcases subRuns_mem spTab '_' ts c h1 with h | ⟨h2, _⟩
      · exact Or.inl h
      · exact Or.inr (pyStrip_mem t0 c h2)
  have f2 : ∀ c ∈ t2, spTab c = false := by
    intro c hc
    rcases subRuns_mem undCh '_' t1 c hc with rfl | ⟨h1, _⟩
    · decide
    · rcases subRuns_mem spTab '_' ts c h1 with rfl | ⟨_, h2⟩
      · decide
      · exact h2
  have f3 : ∀ c, t2.head? = some c → pyWs c = false := by
    intro c hc
    rcases subRuns_head? undCh '_' t1 c hc with rfl | ⟨h1, _⟩
    · decide
    · rcases subRuns_head? spTab '_' ts c h1 with rfl | ⟨h2, _⟩
      · decide
      · exact pyStrip_head? t0 c h2
  have f4 : ∀ c, t2.getLast? = some c → pyWs c = false := by
    intro c hc
    rcases subRuns_getLast? undCh '_' t1 c hc with rfl | ⟨h1, _⟩
    · decide
    · rcases subRuns_getLast? spTab '_' ts c h1 with rfl | ⟨h2, _⟩
      · decide
      · exact pyStrip_getLast? t0 c h2
  have f5 : List.Chain' Qund t2 := by
    refine List.Chain'.imp ?_ (subRuns_chain' undCh '_' t1)
    intro a b h hcon
    exact h ⟨by simp [undCh, hcon.1], by simp [undCh, hcon.2]⟩
  have f6 : ∀ c, c ∈ t2 ∨ c = '_' → replPhase bad repl [c] = [c] := by
    intro c hc
    rcases hc with hc | rfl
    · rcases f1 c hc with rfl | h
      · exact hfixu
      · exact hfix c h
    · exact hfixu
  obtain ⟨p1, p2, p3, p4, p5⟩ := windowsFix_pack t2 f2
  have hpost : sanitisePost t0 = if windowsFix t2 = [] then ['_'] else windowsFix t2 := rfl
  by_cases hWnil : windowsFix t2 = []
  · rw [hpost, if_pos hWnil]
    show sanitise ['_'] bad repl = ['_']
    unfold sanitise
    rw [show replPhase bad repl ['_'] = ['_'] from hfixu]
    decide
  · rw [hpost, if_neg hWnil]
    have w6 : ∀ c ∈ windowsFix t2, replPhase bad repl [c] = [c] := fun c hc =>
      f6 c (p1 c hc)
    have wh : ∀ c, (windowsFix t2).head? = some c → pyWs c = false := by
      intro c hc
      rcases p3 c hc with rfl | h
      · decide
      · exact f3 c h
    have wl : ∀ c, (windowsFix t2).getLast? = some c → pyWs c = false := by
      intro c hc
      rcases p4 c hc with rfl | rfl | h
      · decide
      · decide
      · exact f4 c h
    have wsp : ∀ c ∈ windowsFix t2, spTab c = false := by
      intro c hc
      rcases p1 c hc with h | rfl
      · exact f2 c h
      · decide
    have wch : List.Chain' Qund (windowsFix t2) := p5 f5
    unfold sanitise
    rw [replPhase_eq_self bad repl (windowsFix t2) w6]
    unfold sanitisePost
    rw [pyStrip_eq_self (windowsFix t2) wh wl]
    rw [subRuns_eq_self spTab '_' (windowsFix t2) wsp]
    rw [subRuns_und_eq_self (windowsFix t2) wch]
    rw [p2, if_neg hWnil]

/-- Counterexample for C7: `sanitise` is not idempotent.  With bad set
`{'_'}` and single-character replacement `"x"`, sanitising `"con"`
appends the reserved-name guard underscore giving `"con_"`; a second
pass replaces that underscore, giving `"conx"`. -/
theorem claim7_counterexample :
    sanitise (sanitise ['c','o','n'] ['_'] (some ['x'])) ['_'] (some ['x']) ≠
      sanitise ['c','o','n'] ['_'] (some ['x']) := by decide

/-- Claim C7 (amended): `sanitise` is idempotent for every name,
provided the underscore is not in the bad-character set and the
replacement is absent, empty, or a single character (the validated GUI
domain).  Without these conditions idempotence fails: the reserved-name
guard appends `_`, which a second pass would replace or delete if `_`
were bad, and a multi-character replacement can re-expand characters it
itself introduced. -/
theorem claim7_amended (n bad : List Char) (repl : Option (List Char))
    (hbad : '_' ∉ bad)
    (hrepl : repl = none ∨ repl = some [] ∨ ∃ c0, repl = some [c0]) :
    sanitise (sanitise n bad repl) bad repl = sanitise n bad repl := by
  have h0 : sanitise n bad repl = sanitisePost (replPhase bad repl n) := rfl
  rw [h0]
  exact sanitisePost_fixpoint bad repl hbad (replPhase bad repl n)
    (fun c hc => charFix_of_mem hrepl hc)

/-- Witness for the amended C7: the spec's own standard-mode example is
idempotent. -/
theorem claim7_amended_witness :
    sanitise (sanitise ['b','a','d',':','n','a','m','e','?','.','t','x','t']
        [':','?'] (some ['_'])) [':','?'] (some ['_']) =
      sanitise ['b','a','d',':','n','a','m','e','?','.','t','x','t']
        [':','?'] (some ['_']) :=
  claim7_amended _ _ _ (by decide) (Or.inr (Or.inr ⟨'_', rfl⟩))
